import Mathlib

/-!
A verification development for the grammar-composition and disambiguation
pipeline of this NeMo-text-processing slice.

The external weighted-automata library (pynini) is modelled by a shallow
embedding: a weighted transducer is a function from an input character list to
the list of all partial transductions, each a triple of produced output,
accumulated weight and remaining input.  Union, concatenation, Kleene closure,
cross-product substitution (insertion/deletion) and composition with a total
rewrite are defined below exactly as the sources combine them.

Weights are exact: the decimal weight literals of the sources (1.01, -1.1,
1.1, 100, 0.0001) are represented in fixed-point units of 1/10000 as the
integers 10100, -11000, 11000, 1000000 and 1, which preserves addition,
ordering and sign.

Every Kleene closure appearing in the sources is over a transducer that
consumes at least one input character per iteration, so the fuel-indexed
closure below (with fuel equal to the input length) enumerates exactly the
transductions of the library's unbounded closure.
-/

/-- A partial transduction: (output produced, weight, remaining input). -/
abbrev TRes := List Char × Int × List Char

/-- A weighted transducer over strings, in prefix style: all ways to transduce
a prefix of the input, each with produced output, weight and leftover input. -/
abbrev Wfst := List Char → List TRes

def str (s : String) : List Char := s.toList

/-- `pynini.cross a b`: consume the literal `a`, output the literal `b`. -/
def cross (a b : List Char) : Wfst := fun cs =>
  if a.isPrefixOf cs then [(b, 0, cs.drop a.length)] else []

/-- `pynutil.delete s`. -/
def pdelete (s : List Char) : Wfst := cross s []

/-- `pynutil.insert s`. -/
def pinsert (s : List Char) : Wfst := cross [] s

/-- `pynini.accep s`. -/
def accep (s : List Char) : Wfst := cross s s

/-- Concatenation `t + u` of two transducers. -/
def tseq (t u : Wfst) : Wfst := fun cs =>
  (t cs).flatMap (fun p => (u p.2.2).map (fun q => (p.1 ++ q.1, p.2.1 + q.2.1, q.2.2)))

/-- Union `t | u` of two transducers. -/
def tunion (t u : Wfst) : Wfst := fun cs => t cs ++ u cs

/-- `pynutil.add_weight t w` (weight in units of 1/10000). -/
def addWeight (w : Int) (t : Wfst) : Wfst := fun cs =>
  (t cs).map (fun p => (p.1, w + p.2.1, p.2.2))

/-- A single-character acceptor restricted to a character class. -/
def charCls (p : Char → Bool) : Wfst := fun cs =>
  match cs with
  | [] => []
  | c :: r => if p c then [([c], 0, r)] else []

/-- A single-character deletion restricted to a character class. -/
def charDel (p : Char → Bool) : Wfst := fun cs =>
  match cs with
  | [] => []
  | c :: r => if p c then [([], 0, r)] else []

/-- Fuel-indexed Kleene closure: at most `n` consuming iterations. -/
def starN (t : Wfst) : Nat → Wfst
  | 0 => fun cs => [([], 0, cs)]
  | n + 1 => fun cs =>
      ([], 0, cs) ::
        (t cs).flatMap (fun p =>
          if p.2.2.length < cs.length then
            (starN t n p.2.2).map (fun q => (p.1 ++ q.1, p.2.1 + q.2.1, q.2.2))
          else [])

/-- `pynini.closure t`: since every closure argument in the sources consumes at
least one character per iteration, input-length fuel is exact. -/
def star (t : Wfst) : Wfst := fun cs => starN t cs.length cs

/-- `pynini.closure t 0 1`. -/
def opt (t : Wfst) : Wfst := fun cs => ([], 0, cs) :: t cs

/-- Composition `t @ f` of a transducer with a total string rewrite `f`
(all the second components used by the sources are total rewrites). -/
def mapOutput (f : List Char → List Char) (t : Wfst) : Wfst := fun cs =>
  (t cs).map (fun p => (f p.1, p.2.1, p.2.2))

/-- The complete transductions of the whole input: output and weight of every
accepting path that consumes the input entirely. -/
def completeResults (t : Wfst) (cs : List Char) : List (List Char × Int) :=
  (t cs).filterMap (fun p => if p.2.2 = [] then some (p.1, p.2.1) else none)

/-- `NEMO_NOT_QUOTE` from graph_utils: any character other than `"`. -/
def NEMO_NOT_QUOTE : Wfst := charCls (· ≠ '"')

/-- The whitespace class of graph_utils (`NEMO_WHITE_SPACE`). -/
def isWhite (c : Char) : Bool := c = ' ' ∨ c = '\t' ∨ c = '\n' ∨ c = '\r' ∨ c = ' '

/-- `delete_space` from graph_utils: delete any amount of whitespace. -/
def delete_space : Wfst := star (charDel isWhite)

/-- The non-breaking-space normalization applied by `GraphFst.delete_tokens`. -/
def nbsp_to_space (cs : List Char) : List Char := cs.map (fun c => if c = ' ' then ' ' else c)

/-- Modelled from the spec: `GraphFst.delete_tokens` of graph_utils (a file not
among the given sources).  Per the serialization format `category { fields }`,
it deletes the category name, the brace delimiters and the surrounding
whitespace around the wrapped verbalizer, then normalizes non-breaking spaces. -/
def delete_tokens (name : List Char) (t : Wfst) : Wfst :=
  mapOutput nbsp_to_space
    (tseq (pdelete name)
      (tseq delete_space
        (tseq (pdelete (str "\x7b"))
          (tseq delete_space (tseq t (tseq delete_space (pdelete (str "\x7d"))))))))

/-- The shared shape `pynutil.delete(label) + closure(NEMO_NOT_QUOTE) +
pynutil.delete('"')` used for every tagged field of the verbalizers. -/
def field_del (label : String) : Wfst :=
  tseq (pdelete (str label)) (tseq (star NEMO_NOT_QUOTE) (pdelete (str "\"")))

namespace JaFraction

/-!  Embedding of
`inverse_text_normalization/ja/verbalizers/fraction.py` (`FractionFst`). -/

/-- `sign_component`: parses `negative: "…"`, emitting the quoted value. -/
def sign_component : Wfst := field_del "negative: \""

/-- `integer_component`: `integer_part: "…"` or `negative: "…" integer_part: "…"`. -/
def integer_component : Wfst :=
  tunion (field_del "integer_part: \"")
    (tseq sign_component (tseq (pdelete (str " ")) (field_del "integer_part: \"")))

/-- `denominator_component`: parses `denominator: "…"`. -/
def denominator_component : Wfst := field_del "denominator: \""

/-- `numerator_component`: parses `numerator: "…"`. -/
def numerator_component : Wfst := field_del "numerator: \""

/-- The `graph` of `FractionFst.__init__` (fraction.py lines 50-57). -/
def graph : Wfst :=
  tseq (star (tseq integer_component (tseq (pdelete (str " ")) (pinsert (str " ")))))
    (tseq (star (tseq sign_component (pdelete (str " "))))
      (tseq numerator_component
        (tseq (pdelete (str " ")) (tseq (pinsert (str "/")) denominator_component))))

/-- `self.fst`: the final fraction verbalizer. -/
def fractionFst : Wfst := delete_tokens (str "fraction") graph

end JaFraction

namespace DeElectronic

/-!  Embedding of `text_normalization/de/verbalizers/electronic.py`
(`ElectronicFst`, deterministic mode). -/

/-- Modelled from the spec: `data/electronic/symbols.tsv`, the
character-to-word substitution table for symbols; the entry the spec
exercises maps the period to the localized word for "dot" ("punkt"). -/
def graph_symbols_map (c : Char) : Option (List Char) :=
  if c = '.' then some (str "punkt") else none

/-- Modelled from the spec: the German digit tables
(`data/numbers/digit.tsv`, `data/numbers/zero.tsv`), mapping each digit to
its spoken-word form. -/
def graph_digit_map (c : Char) : Option (List Char) :=
  match c with
  | '0' => some (str "null")
  | '1' => some (str "eins")
  | '2' => some (str "zwei")
  | '3' => some (str "drei")
  | '4' => some (str "vier")
  | '5' => some (str "fünf")
  | '6' => some (str "sechs")
  | '7' => some (str "sieben")
  | '8' => some (str "acht")
  | '9' => some (str "neun")
  | _ => none

/-- A context-free obligatory `pynini.cdrewrite` over single-character
patterns is a character-wise substitution. -/
def charRewrite (f : Char → Option (List Char)) (cs : List Char) : List Char :=
  cs.flatMap (fun c => ((f c).getD [c]))

/-- `verbalize_characters = cdrewrite(graph_symbols | graph_digit, "", "", NEMO_SIGMA)`. -/
def verbalize_characters : List Char → List Char :=
  charRewrite (fun c =>
    match graph_symbols_map c with
    | some w => some w
    | none => graph_digit_map c)

/-- Modelled from the spec: `data/electronic/server_name.tsv`, the literal
lookup table of common server names rendered as single words; the entry the
spec exercises is "hotmail". -/
def server_common : Wfst := accep (str "hotmail")

/-- Modelled from the spec: `data/electronic/domain.tsv`, the literal lookup
table of common domain suffixes; the entry the spec exercises is "com". -/
def domain_common : Wfst := accep (str "com")

/-- The character class accepted by `add_space_after_char`:
`NEMO_NOT_QUOTE - " "`. -/
def notQuoteSpace (c : Char) : Bool := c ≠ '"' ∧ c ≠ ' '

/-- `add_space_after_char` (electronic.py lines 53-56). -/
def add_space_after_char : Wfst :=
  tseq (star (tseq (charCls notQuoteSpace) (pinsert (str " ")))) (charCls notQuoteSpace)

/-- `user_name` (lines 60-61), already composed with `verbalize_characters`. -/
def user_name : Wfst :=
  mapOutput verbalize_characters
    (tseq (pdelete (str "username: \"")) (tseq add_space_after_char (pdelete (str "\""))))

/-- `convert_defaults` (line 63): weight 0.0001 (1 fixed-point unit) on the
character fallback. -/
def convert_defaults : Wfst :=
  tunion (tunion (addWeight 1 NEMO_NOT_QUOTE) server_common) domain_common

/-- The inner `domain` before the field wrapper (lines 64-65), composed with
`verbalize_characters`. -/
def domain_inner : Wfst :=
  mapOutput verbalize_characters
    (tseq convert_defaults (star (tseq (pinsert (str " ")) convert_defaults)))

/-- `domain` (line 67): the wrapped field. -/
def domain : Wfst :=
  tseq (pdelete (str "domain: \"")) (tseq domain_inner (pdelete (str "\"")))

/-- `protocol` (lines 68-72): the value spelled with spaces, composed with the
symbols-only rewrite. -/
def protocol : Wfst :=
  tseq (pdelete (str "protocol: \""))
    (tseq (mapOutput (charRewrite graph_symbols_map) add_space_after_char)
      (pdelete (str "\"")))

/-- `NEMO_SPACE` from graph_utils: the literal space acceptor. -/
def NEMO_SPACE : Wfst := accep (str " ")

/-- `self.graph` (lines 73-75). -/
def graph : Wfst :=
  tunion (tseq (opt (tseq protocol NEMO_SPACE)) domain)
    (tunion (tseq user_name (tseq NEMO_SPACE (tseq (pinsert (str "at ")) domain)))
      (tseq (pinsert (str "at ")) user_name))

/-- Modelled from the spec: `delete_preserve_order` of graph_utils (not among
the given sources): optionally deletes the trailing marker field
` preserve_order: true` of a tagged token. -/
def delete_preserve_order : Wfst := opt (pdelete (str " preserve_order: true"))

/-- An obligatory `cdrewrite` of `pat` to `repl` restricted to the
end-of-string right context `[EOS]`. -/
def cdrewriteEOS (pat repl : List Char) : List Char → List Char
  | [] => []
  | c :: cs => if c :: cs = pat then repl else c :: cdrewriteEOS pat repl cs

/-- `preserve_final_period` (line 79): rewrite a sentence-final " punkt" back
to a literal period. -/
def preserve_final_period : List Char → List Char := cdrewriteEOS (str " punkt") (str ".")

/-- `self.fst` (lines 78-82): the final electronic verbalizer. -/
def electronicFst : Wfst :=
  mapOutput preserve_final_period
    (delete_tokens (str "electronic") (tseq graph delete_preserve_order))

end DeElectronic

namespace JpClassify

/-!  Embedding of
`inverse_text_normalization/jp/taggers/tokenize_and_classify.py`
(`ClassifyFst`). -/

/-- The semiotic categories united by `ClassifyFst.__init__`
(lines 92-103). -/
inductive Category
  | whitelist
  | cardinal
  | ordinal
  | date
  | decimal
  | fraction
  | time
  | word
  | punctuation
deriving DecidableEq, Fintype, Repr

/-- The per-category weights of the classifier union (lines 92-103), in
fixed-point units of 1/10000 of the source literals. -/
def categoryWeight : Category → Int
  | .whitelist => 10100     -- add_weight(whitelist_graph, 1.01)
  | .cardinal => -11000     -- add_weight(cardinal_graph, -1.1)
  | .ordinal => 11000       -- add_weight(ordinal_graph, 1.1)
  | .date => 11000          -- add_weight(date_graph, 1.1)
  | .decimal => 11000       -- add_weight(decimal_graph, 1.1)
  | .fraction => 11000      -- add_weight(fraction_graph, 1.1)
  | .time => 11000          -- add_weight(time_graph, 1.1)
  | .word => 1000000        -- add_weight(word_graph, 100)
  | .punctuation => 11000   -- add_weight(punct_graph, weight=1.1)

/-- The far cache archive file name (line 64):
`f"en_itn_{input_case}.far"`. -/
def far_file_name (input_case : String) : String := "en_itn_" ++ input_case ++ ".far"

/-- The declaration order of the content categories in the `classify` union
(lines 92-101). -/
def classifyOrder : List Category :=
  [.whitelist, .cardinal, .ordinal, .date, .decimal, .fraction, .time, .word]

/-- Modelled from the spec: the per-category tagger transducers and the
shortest-path disambiguator are not among the given sources.  Per §4.2-§4.3,
a span's tagging is the accepting category of minimum weight in the union,
ties broken deterministically by the declaration order of the union. -/
def classifySpan (accepts : Category → Bool) : Option Category :=
  (classifyOrder.filter accepts).foldl
    (fun best c =>
      match best with
      | none => some c
      | some b => if categoryWeight c < categoryWeight b then some c else some b)
    none

end JpClassify

/-! ## Relational semantics and statement helpers -/

/-- The relational semantics of the consuming Kleene closure: zero or more
iterations of `t`, each consuming at least one input character. -/
inductive StarRel (t : Wfst) : List Char → TRes → Prop
  | done (cs : List Char) : StarRel t cs ([], 0, cs)
  | step {cs o w r o2 w2 r2} :
      (o, w, r) ∈ t cs → r.length < cs.length → StarRel t r (o2, w2, r2) →
      StarRel t cs (o ++ o2, w + w2, r2)

/-- One unit of the electronic `domain` grammar (`convert_defaults`): a single
non-quote character at weight 0.0001, or a common server/domain table entry at
weight 0. -/
inductive ConvUnit : List Char → List Char → Int → Prop
  | chr {c : Char} : c ≠ '"' → ConvUnit [c] [c] 1
  | server : ConvUnit (str "hotmail") (str "hotmail") 0
  | dom : ConvUnit (str "com") (str "com") 0

/-- A nonempty sequence of `convert_defaults` units with a space inserted
between consecutive units: consumed input, produced output (before the
character rewrite), total weight. -/
inductive DomainSeq : List Char → List Char → Int → Prop
  | single {m o w} : ConvUnit m o w → DomainSeq m o w
  | cons {m o w m2 o2 w2} :
      ConvUnit m o w → DomainSeq m2 o2 w2 → DomainSeq (m ++ m2) (o ++ ' ' :: o2) (w + w2)

/-- `n`-fold repetition of a string, for stating unbounded-closure claims. -/
def rep (x : List Char) : Nat → List Char
  | 0 => []
  | n + 1 => x ++ rep x n

/-- The consumed/produced strings of the fraction verbalizer's leading
closure: a sequence of `integer_part` components (each optionally preceded by
a `negative` component), each followed by a deleted space and an inserted
space. -/
inductive IntSeq : List Char → List Char → Prop
  | nil : IntSeq [] []
  | plain {V m2 o2} : (∀ c ∈ V, c ≠ '"') → IntSeq m2 o2 →
      IntSeq (str "integer_part: \"" ++ V ++ '"' :: ' ' :: m2) (V ++ ' ' :: o2)
  | signed {S V m2 o2} : (∀ c ∈ S, c ≠ '"') → (∀ c ∈ V, c ≠ '"') → IntSeq m2 o2 →
      IntSeq (str "negative: \"" ++ S ++ '"' :: ' ' :: (str "integer_part: \"" ++ V ++ '"' :: ' ' :: m2))
        (S ++ V ++ ' ' :: o2)

/-- The consumed/produced strings of the fraction verbalizer's sign closure:
a sequence of `negative` components, each followed by a deleted space. -/
inductive SignSeq : List Char → List Char → Prop
  | nil : SignSeq [] []
  | cons {S m2 o2} : (∀ c ∈ S, c ≠ '"') → SignSeq m2 o2 →
      SignSeq (str "negative: \"" ++ S ++ '"' :: ' ' :: m2) (S ++ o2)

/-! ## Membership lemmas for the combinators -/

theorem mem_cross {a b cs : List Char} {q : TRes} :
    q ∈ cross a b cs ↔ a <+: cs ∧ q = (b, 0, cs.drop a.length) := by
  by_cases h : a <+: cs
  · simp [cross, List.isPrefixOf_iff_prefix.2 h, h]
  · have hb : a.isPrefixOf cs = false := by
      rw [← Bool.not_eq_true, List.isPrefixOf_iff_prefix]
      exact h
    simp [cross, hb, h]

theorem mem_tseq {t u : Wfst} {cs : List Char} {q : TRes} :
    q ∈ tseq t u cs ↔
      ∃ p1, p1 ∈ t cs ∧ ∃ p2, p2 ∈ u p1.2.2 ∧
        q = (p1.1 ++ p2.1, p1.2.1 + p2.2.1, p2.2.2) := by
  simp only [tseq, List.mem_flatMap, List.mem_map]
  constructor
  · rintro ⟨p1, h1, p2, h2, h3⟩
    exact ⟨p1, h1, p2, h2, h3.symm⟩
  · rintro ⟨p1, h1, p2, h2, h3⟩
    exact ⟨p1, h1, p2, h2, h3.symm⟩

theorem mem_tunion {t u : Wfst} {cs : List Char} {q : TRes} :
    q ∈ tunion t u cs ↔ q ∈ t cs ∨ q ∈ u cs := by
  simp [tunion]

theorem mem_addWeight {w : Int} {t : Wfst} {cs : List Char} {q : TRes} :
    q ∈ addWeight w t cs ↔ ∃ p, p ∈ t cs ∧ q = (p.1, w + p.2.1, p.2.2) := by
  simp only [addWeight, List.mem_map]
  constructor
  · rintro ⟨p, h1, h2⟩
    exact ⟨p, h1, h2.symm⟩
  · rintro ⟨p, h1, h2⟩
    exact ⟨p, h1, h2.symm⟩

theorem mem_mapOutput {f : List Char → List Char} {t : Wfst} {cs : List Char} {q : TRes} :
    q ∈ mapOutput f t cs ↔ ∃ p, p ∈ t cs ∧ q = (f p.1, p.2.1, p.2.2) := by
  simp only [mapOutput, List.mem_map]
  constructor
  · rintro ⟨p, h1, h2⟩
    exact ⟨p, h1, h2.symm⟩
  · rintro ⟨p, h1, h2⟩
    exact ⟨p, h1, h2.symm⟩

theorem mem_charCls {p : Char → Bool} {cs : List Char} {q : TRes} :
    q ∈ charCls p cs ↔ ∃ c r, cs = c :: r ∧ p c = true ∧ q = ([c], 0, r) := by
  cases cs with
  | nil => simp [charCls]
  | cons c r =>
    by_cases h : p c
    · constructor
      · intro hm
        simp [charCls, h] at hm
        exact ⟨c, r, rfl, h, hm⟩
      · rintro ⟨c', r', h1, h2, h3⟩
        injection h1 with e1 e2
        subst e1
        subst e2
        simp [charCls, h, h3]
    · constructor
      · intro hm
        simp [charCls, h] at hm
      · rintro ⟨c', r', h1, h2, h3⟩
        injection h1 with e1 e2
        subst e1
        exact absurd h2 h

theorem mem_charDel {p : Char → Bool} {cs : List Char} {q : TRes} :
    q ∈ charDel p cs ↔ ∃ c r, cs = c :: r ∧ p c = true ∧ q = ([], 0, r) := by
  cases cs with
  | nil => simp [charDel]
  | cons c r =>
    by_cases h : p c
    · constructor
      · intro hm
        simp [charDel, h] at hm
        exact ⟨c, r, rfl, h, hm⟩
      · rintro ⟨c', r', h1, h2, h3⟩
        injection h1 with e1 e2
        subst e2
        simp [charDel, h, h3]
    · constructor
      · intro hm
        simp [charDel, h] at hm
      · rintro ⟨c', r', h1, h2, h3⟩
        injection h1 with e1 e2
        subst e1
        exact absurd h2 h

theorem mem_opt {t : Wfst} {cs : List Char} {q : TRes} :
    q ∈ opt t cs ↔ q = ([], 0, cs) ∨ q ∈ t cs := by
  simp [opt]

theorem mem_completeResults {t : Wfst} {cs o : List Char} {w : Int} :
    (o, w) ∈ completeResults t cs ↔ (o, w, []) ∈ t cs := by
  simp only [completeResults, List.mem_filterMap]
  constructor
  · rintro ⟨p, hp, he⟩
    by_cases h : p.2.2 = []
    · simp [h] at he
      have : p = (o, w, []) := by
        obtain ⟨p1, p2, p3⟩ := p
        simp_all
      rwa [this] at hp
    · simp [h] at he
  · intro h
    exact ⟨(o, w, []), h, by simp⟩


/-! ## The Kleene-closure relation and its characterizations -/

theorem starRel_of_mem_starN {t : Wfst} :
    ∀ {n : Nat} {cs : List Char} {q : TRes}, q ∈ starN t n cs → StarRel t cs q := by
  intro n
  induction n with
  | zero =>
    intro cs q hq
    simp only [starN, List.mem_singleton] at hq
    subst hq
    exact StarRel.done cs
  | succ n ih =>
    intro cs q hq
    simp only [starN, List.mem_cons, List.mem_flatMap] at hq
    rcases hq with rfl | ⟨p, hp, hq⟩
    · exact StarRel.done cs
    · by_cases hlen : p.2.2.length < cs.length
      · simp only [hlen, if_true, List.mem_map] at hq
        rcases hq with ⟨p2, hp2, rfl⟩
        have hmem : (p.1, p.2.1, p.2.2) ∈ t cs := hp
        have h2 : StarRel t p.2.2 (p2.1, p2.2.1, p2.2.2) := ih hp2
        exact StarRel.step hmem hlen h2
      · simp [hlen] at hq

theorem mem_starN_of_starRel {t : Wfst} {cs : List Char} {q : TRes}
    (h : StarRel t cs q) :
    ∀ n, cs.length ≤ n → q ∈ starN t n cs := by
  induction h with
  | done cs =>
    intro n _
    cases n with
    | zero => simp [starN]
    | succ n => simp [starN]
  | step hmem hlen _hst ih =>
    intro n hn
    rename_i cs o w r o2 w2 r2
    cases n with
    | zero => omega
    | succ n =>
      simp only [starN, List.mem_cons, List.mem_flatMap]
      refine Or.inr ⟨(o, w, r), hmem, ?_⟩
      have : r.length < cs.length := hlen
      simp only [this, if_true, List.mem_map]
      exact ⟨(o2, w2, r2), ih n (by omega), rfl⟩

theorem mem_star {t : Wfst} {cs : List Char} {q : TRes} :
    q ∈ star t cs ↔ StarRel t cs q :=
  ⟨starRel_of_mem_starN, fun h => mem_starN_of_starRel h cs.length le_rfl⟩

theorem starRel_charCls {p : Char → Bool} {cs : List Char} {q : TRes} :
    StarRel (charCls p) cs q ↔
      ∃ a r, cs = a ++ r ∧ (∀ c ∈ a, p c = true) ∧ q = (a, 0, r) := by
  constructor
  · intro h
    induction h with
    | done cs => exact ⟨[], cs, rfl, by simp, rfl⟩
    | step hmem _hlen _hst ih =>
      rename_i cs o w r o2 w2 r2
      rcases mem_charCls.1 hmem with ⟨c, r', hcs, hpc, heq⟩
      simp only [Prod.mk.injEq] at heq
      obtain ⟨rfl, rfl, rfl⟩ := heq
      rcases ih with ⟨a, rr, hsplit, hall, heq2⟩
      simp only [Prod.mk.injEq] at heq2
      obtain ⟨rfl, rfl, rfl⟩ := heq2
      refine ⟨c :: o2, r2, ?_, ?_, ?_⟩
      · simp [hcs, hsplit]
      · intro x hx
        rcases List.mem_cons.1 hx with rfl | hx
        · exact hpc
        · exact hall x hx
      · simp
  · rintro ⟨a, r, rfl, hall, rfl⟩
    induction a with
    | nil => exact StarRel.done r
    | cons c a ih =>
      have hmem : ([c], 0, a ++ r) ∈ charCls p (c :: a ++ r) :=
        mem_charCls.2 ⟨c, a ++ r, by simp, hall c (by simp), rfl⟩
      have hrec := ih (fun x hx => hall x (List.mem_cons_of_mem c hx))
      have := StarRel.step hmem (by simp) hrec
      simpa using this

theorem starRel_charDel {p : Char → Bool} {cs : List Char} {q : TRes} :
    StarRel (charDel p) cs q ↔
      ∃ a r, cs = a ++ r ∧ (∀ c ∈ a, p c = true) ∧ q = ([], 0, r) := by
  constructor
  · intro h
    induction h with
    | done cs => exact ⟨[], cs, rfl, by simp, rfl⟩
    | step hmem _hlen _hst ih =>
      rename_i cs o w r o2 w2 r2
      rcases mem_charDel.1 hmem with ⟨c, r', hcs, hpc, heq⟩
      simp only [Prod.mk.injEq] at heq
      obtain ⟨rfl, rfl, rfl⟩ := heq
      rcases ih with ⟨a, rr, hsplit, hall, heq2⟩
      simp only [Prod.mk.injEq] at heq2
      obtain ⟨rfl, rfl, rfl⟩ := heq2
      refine ⟨c :: a, r2, ?_, ?_, ?_⟩
      · simp [hcs, hsplit]
      · intro x hx
        rcases List.mem_cons.1 hx with rfl | hx
        · exact hpc
        · exact hall x hx
      · simp
  · rintro ⟨a, r, rfl, hall, rfl⟩
    induction a with
    | nil => exact StarRel.done r
    | cons c a ih =>
      have hmem : ([], 0, a ++ r) ∈ charDel p (c :: a ++ r) :=
        mem_charDel.2 ⟨c, a ++ r, by simp, hall c (by simp), rfl⟩
      have hrec := ih (fun x hx => hall x (List.mem_cons_of_mem c hx))
      have := StarRel.step hmem (by simp) hrec
      simpa using this

theorem mem_delete_space {cs : List Char} {q : TRes} :
    q ∈ delete_space cs ↔
      ∃ sp r, cs = sp ++ r ∧ (∀ c ∈ sp, isWhite c = true) ∧ q = ([], 0, r) := by
  rw [delete_space, mem_star, starRel_charDel]

theorem mem_star_notQuote {cs : List Char} {q : TRes} :
    q ∈ star NEMO_NOT_QUOTE cs ↔
      ∃ a r, cs = a ++ r ∧ (∀ c ∈ a, c ≠ '"') ∧ q = (a, 0, r) := by
  rw [NEMO_NOT_QUOTE, mem_star, starRel_charCls]
  constructor
  · rintro ⟨a, r, rfl, hall, rfl⟩
    exact ⟨a, r, rfl, fun c hc => by simpa using hall c hc, rfl⟩
  · rintro ⟨a, r, rfl, hall, rfl⟩
    exact ⟨a, r, rfl, fun c hc => by simpa using hall c hc, rfl⟩

/-! ## Literal and separator helpers -/

theorem not_prefix_append {A B t : List Char}
    (h1 : A.isPrefixOf B = false) (h2 : B.isPrefixOf A = false) :
    ¬ A <+: B ++ t := by
  intro h
  rcases List.prefix_or_prefix_of_prefix h (List.prefix_append B t) with hc | hc
  · rw [← List.isPrefixOf_iff_prefix, h1] at hc
    exact Bool.noConfusion hc
  · rw [← List.isPrefixOf_iff_prefix, h2] at hc
    exact Bool.noConfusion hc

theorem mem_cross_append {a b t : List Char} {q : TRes} :
    q ∈ cross a b (a ++ t) ↔ q = (b, 0, t) := by
  rw [mem_cross]
  simp [List.prefix_append, List.drop_left]

theorem append_sep_inj {c : Char} :
    ∀ {a b r s : List Char}, (∀ x ∈ a, x ≠ c) → (∀ x ∈ b, x ≠ c) →
      a ++ c :: r = b ++ c :: s → a = b ∧ r = s := by
  intro a
  induction a with
  | nil =>
    intro b r s _ hb h
    cases b with
    | nil => simpa using h
    | cons y b' =>
      exfalso
      rw [List.nil_append] at h
      injection h with h1 _h2
      exact hb y (by simp) h1.symm
  | cons x a' ih =>
    intro b r s ha hb h
    cases b with
    | nil =>
      exfalso
      rw [List.nil_append] at h
      injection h with h1 _h2
      exact ha x (by simp) h1
    | cons y b' =>
      injection h with h1 h2
      have := ih (fun z hz => ha z (by simp [hz])) (fun z hz => hb z (by simp [hz])) h2
      exact ⟨by rw [h1, this.1], this.2⟩

theorem space_split_single {sp r : List Char} {u : Char} {t : List Char}
    (h : sp ++ r = ' ' :: u :: t) (hsp : ∀ c ∈ sp, isWhite c = true)
    (hu : isWhite u = false) : r = ' ' :: u :: t ∨ r = u :: t := by
  cases sp with
  | nil =>
    left
    simpa using h
  | cons s sp' =>
    injection h with _h1 h2
    cases sp' with
    | nil =>
      right
      simpa using h2
    | cons s' sp'' =>
      injection h2 with h3 _h4
      exfalso
      have hw := hsp s' (by simp)
      rw [h3, hu] at hw
      exact Bool.noConfusion hw

theorem mem_field_del {label : String} {cs : List Char} {q : TRes} :
    q ∈ field_del label cs ↔
      ∃ V rest, cs = str label ++ (V ++ '"' :: rest) ∧ (∀ c ∈ V, c ≠ '"') ∧
        q = (V, 0, rest) := by
  have hq1 : str "\"" = ['"'] := rfl
  constructor
  · intro hm
    rw [field_del, mem_tseq] at hm
    rcases hm with ⟨p1, hp1, p2, hp2, hq⟩
    rw [pdelete, mem_cross] at hp1
    rcases hp1 with ⟨⟨tail, rfl⟩, rfl⟩
    simp only [List.drop_left] at hp2 hq
    rw [mem_tseq] at hp2
    rcases hp2 with ⟨p21, hp21, p22, hp22, hp2e⟩
    rw [mem_star_notQuote] at hp21
    rcases hp21 with ⟨V, r1, rfl, hV, rfl⟩
    rw [pdelete, mem_cross] at hp22
    rcases hp22 with ⟨⟨t2, rfl⟩, rfl⟩
    simp only [List.drop_left] at hp2e
    refine ⟨V, t2, ?_, hV, ?_⟩
    · simp [hq1]
    · rw [hq, hp2e]
      simp
  · rintro ⟨V, rest, rfl, hV, rfl⟩
    rw [field_del, mem_tseq]
    refine ⟨([], 0, V ++ '"' :: rest), ?_, (V, 0, rest), ?_, by simp⟩
    · rw [pdelete]
      exact mem_cross_append.2 rfl
    · rw [mem_tseq]
      refine ⟨(V, 0, '"' :: rest), ?_, ([], 0, rest), ?_, by simp⟩
      · exact mem_star_notQuote.2 ⟨V, '"' :: rest, rfl, hV, rfl⟩
      · rw [pdelete]
        have : str "\"" ++ rest = '"' :: rest := by simp [str]
        rw [← this]
        exact mem_cross_append.2 rfl

/-! ## Literal mismatch and inversion helpers -/

theorem concrete_append_ne {A B : String} {X Y : List Char}
    (h1 : (str A).isPrefixOf (str B) = false) (h2 : (str B).isPrefixOf (str A) = false) :
    str A ++ X ≠ str B ++ Y := by
  intro h
  exact not_prefix_append h1 h2 ⟨X, h⟩

theorem delete_tokens_inv {name : List Char} {t : Wfst} {cs : List Char} {q : TRes}
    (h : q ∈ delete_tokens name t cs) :
    ∃ sp1 sp2 mid o w r,
      cs = name ++ (sp1 ++ ('\x7b' :: (sp2 ++ mid))) ∧
      (∀ c ∈ sp1, isWhite c = true) ∧ (∀ c ∈ sp2, isWhite c = true) ∧
      (o, w, r) ∈ t mid ∧
      ∃ sp3 rest, r = sp3 ++ ('\x7d' :: rest) ∧ (∀ c ∈ sp3, isWhite c = true) ∧
        q = (nbsp_to_space o, w, rest) := by
  rw [delete_tokens, mem_mapOutput] at h
  rcases h with ⟨p, hp, hqe⟩
  rw [mem_tseq] at hp
  rcases hp with ⟨p1, hp1, p2, hp2, hpe⟩
  rw [pdelete, mem_cross] at hp1
  rcases hp1 with ⟨⟨tail, rfl⟩, rfl⟩
  simp only [List.drop_left] at hp2 hpe
  rw [mem_tseq] at hp2
  rcases hp2 with ⟨p3, hp3, p4, hp4, hp2e⟩
  rw [mem_delete_space] at hp3
  rcases hp3 with ⟨sp1, r1, rfl, hsp1, rfl⟩
  rw [mem_tseq] at hp4
  rcases hp4 with ⟨p5, hp5, p6, hp6, hp4e⟩
  rw [pdelete, mem_cross] at hp5
  rcases hp5 with ⟨⟨r2, rfl⟩, rfl⟩
  simp only [List.drop_left] at hp6 hp4e
  rw [mem_tseq] at hp6
  rcases hp6 with ⟨p7, hp7, p8, hp8, hp6e⟩
  rw [mem_delete_space] at hp7
  rcases hp7 with ⟨sp2, mid, rfl, hsp2, rfl⟩
  rw [mem_tseq] at hp8
  rcases hp8 with ⟨p9, hp9, p10, hp10, hp8e⟩
  rw [mem_tseq] at hp10
  rcases hp10 with ⟨p11, hp11, p12, hp12, hp10e⟩
  rw [mem_delete_space] at hp11
  rcases hp11 with ⟨sp3, r3, hr3, hsp3, rfl⟩
  rw [pdelete, mem_cross] at hp12
  rcases hp12 with ⟨⟨rest, rrest⟩, rfl⟩
  have hr : r3 = '\x7d' :: rest := rrest.symm
  subst hr
  have hd : List.drop (str "\x7d").length ('\x7d' :: rest) = rest := rfl
  refine ⟨sp1, sp2, mid, p9.1, p9.2.1, p9.2.2, ?_, hsp1, hsp2, ?_, sp3, rest, ?_, hsp3, ?_⟩
  · have : str "\x7b" = ['\x7b'] := rfl
    simp [this]
  · exact hp9
  · exact hr3
  · rw [hqe, hpe, hp2e, hp4e, hp6e, hp8e, hp10e]
    simp [hd]

theorem delete_tokens_intro {name mid o : List Char} {w : Int} {t : Wfst}
    (h : (o, w, ' ' :: '\x7d' :: []) ∈ t mid) :
    (nbsp_to_space o, w, []) ∈ delete_tokens name t (name ++ ' ' :: '\x7b' :: ' ' :: mid) := by
  rw [delete_tokens, mem_mapOutput]
  refine ⟨(o, w, []), ?_, by simp⟩
  rw [mem_tseq]
  refine ⟨([], 0, ' ' :: '\x7b' :: ' ' :: mid), ?_, (o, w, []), ?_, by simp⟩
  · rw [pdelete]
    exact mem_cross_append.2 rfl
  · rw [mem_tseq]
    refine ⟨([], 0, '\x7b' :: ' ' :: mid), ?_, (o, w, []), ?_, by simp⟩
    · rw [mem_delete_space]
      exact ⟨[' '], '\x7b' :: ' ' :: mid, rfl, by simp [isWhite], rfl⟩
    · rw [mem_tseq]
      refine ⟨([], 0, ' ' :: mid), ?_, (o, w, []), ?_, by simp⟩
      · rw [pdelete]
        have : str "\x7b" ++ (' ' :: mid) = '\x7b' :: ' ' :: mid := rfl
        rw [← this]
        exact mem_cross_append.2 rfl
      · rw [mem_tseq]
        refine ⟨([], 0, mid), ?_, (o, w, []), ?_, by simp⟩
        · rw [mem_delete_space]
          exact ⟨[' '], mid, rfl, by simp [isWhite], rfl⟩
        · rw [mem_tseq]
          refine ⟨(o, w, ' ' :: '\x7d' :: []), h, ([], 0, []), ?_, by simp⟩
          rw [mem_tseq]
          refine ⟨([], 0, '\x7d' :: []), ?_, ([], 0, []), ?_, by simp⟩
          · rw [mem_delete_space]
            exact ⟨[' '], '\x7d' :: [], rfl, by simp [isWhite], rfl⟩
          · rw [pdelete]
            have : str "\x7d" ++ ([] : List Char) = '\x7d' :: [] := rfl
            rw [← this]
            exact mem_cross_append.2 rfl

/-! ## cdrewrite with end-of-string context -/

theorem cdrewriteEOS_at_end {pat repl : List Char} (hpat : pat ≠ []) :
    ∀ ys, DeElectronic.cdrewriteEOS pat repl (ys ++ pat) = ys ++ repl := by
  intro ys
  induction ys with
  | nil =>
    cases pat with
    | nil => exact absurd rfl hpat
    | cons c cs => simp [DeElectronic.cdrewriteEOS]
  | cons y ys ih =>
    have hcons : (y :: ys) ++ pat = y :: (ys ++ pat) := rfl
    rw [hcons]
    have hne : ¬ (y :: (ys ++ pat) = pat) := by
      intro h
      have := congrArg List.length h
      simp at this
      omega
    cases pat with
    | nil => exact absurd rfl hpat
    | cons c cs =>
      rw [DeElectronic.cdrewriteEOS]
      rw [if_neg hne, ih]
      rfl

theorem cdrewriteEOS_no_suffix {pat repl : List Char} :
    ∀ cs, ¬ (pat <:+ cs) → DeElectronic.cdrewriteEOS pat repl cs = cs := by
  intro cs
  induction cs with
  | nil => intro _; rfl
  | cons c cs ih =>
    intro h
    have hne : ¬ (c :: cs = pat) := by
      intro he
      exact h (he ▸ List.suffix_refl (c :: cs))
    rw [DeElectronic.cdrewriteEOS, if_neg hne]
    have : ¬ (pat <:+ cs) := by
      intro hs
      exact h (hs.trans (List.suffix_cons c cs))
    rw [ih this]

/-! ## Claim C1 -/

/-- Claim C1 (code_bug): the spec (and the docstring of fraction.py, lines
25-30) state that the denominator-first tagged strings
`fraction \x7b denominator: "4" numerator: "3" \x7d` (and variants) verbalize to
`3/4`, `1 3/4` and `1/√3`; the verbalizer as implemented parses the
`numerator` field strictly before the `denominator` field, so it rejects all
three documented inputs (no accepting path), while accepting the
numerator-first variants with exactly the documented outputs. -/
theorem ja_fraction_docstring_inputs_rejected :
    completeResults JaFraction.fractionFst
        (str "fraction \x7b denominator: \"4\" numerator: \"3\" \x7d") = [] ∧
    completeResults JaFraction.fractionFst
        (str "fraction \x7b integer_part: \"1\" denominator: \"4\" numerator: \"3\" \x7d") = [] ∧
    completeResults JaFraction.fractionFst
        (str "fraction \x7b denominator: \"√3\" numerator: \"1\" \x7d") = [] ∧
    completeResults JaFraction.fractionFst
        (str "fraction \x7b numerator: \"3\" denominator: \"4\" \x7d") = [(str "3/4", 0)] ∧
    completeResults JaFraction.fractionFst
        (str "fraction \x7b integer_part: \"1\" numerator: \"3\" denominator: \"4\" \x7d") =
      [(str "1 3/4", 0)] ∧
    completeResults JaFraction.fractionFst
        (str "fraction \x7b numerator: \"1\" denominator: \"√3\" \x7d") = [(str "1/√3", 0)] := by
  decide

/-! ## Claim C2 -/

/-- Claim C2, counterexample: it is not the case that every category weight of
the classifier union is non-negative — the cardinal weight is -1.1
(-11000 in fixed-point units). -/
theorem jp_weight_nonneg_refuted :
    ¬ ∀ c : JpClassify.Category, 0 ≤ JpClassify.categoryWeight c := by
  decide

/-- Claim C2 as amended: every per-category weight of the classifier union is
non-negative except the cardinal weight, which is -1.1 (-11000 fixed-point). -/
theorem jp_weight_nonneg_except_cardinal :
    JpClassify.categoryWeight JpClassify.Category.cardinal = -11000 ∧
    ∀ c : JpClassify.Category, c ≠ JpClassify.Category.cardinal →
      0 ≤ JpClassify.categoryWeight c := by
  decide

/-- Witness for the amended claim C2 at the word category. -/
theorem jp_weight_nonneg_except_cardinal_witness :
    0 ≤ JpClassify.categoryWeight JpClassify.Category.word :=
  jp_weight_nonneg_except_cardinal.2 JpClassify.Category.word (by decide)

/-! ## Claim C3 -/

set_option maxRecDepth 100000

/-- Claim C3: whenever a span is accepted by both the cardinal recognizer and
the generic word recognizer, the minimum-weight selection of the classifier
union tags it as cardinal, and the cardinal weight is strictly below the word
weight.  (The classifier of the embedding is a pure function, so repeated
applications to the same acceptance profile yield the same tagging by
definition.) -/
theorem jp_cardinal_beats_word :
    ∀ accepts : JpClassify.Category → Bool,
      accepts JpClassify.Category.cardinal = true →
      accepts JpClassify.Category.word = true →
      (JpClassify.classifySpan accepts = some JpClassify.Category.cardinal ∧
        JpClassify.categoryWeight JpClassify.Category.cardinal <
          JpClassify.categoryWeight JpClassify.Category.word) := by
  decide

/-- Witness for claim C3: the all-accepting profile is tagged cardinal. -/
theorem jp_cardinal_beats_word_witness :
    JpClassify.classifySpan (fun _ => true) = some JpClassify.Category.cardinal ∧
    JpClassify.categoryWeight JpClassify.Category.cardinal <
      JpClassify.categoryWeight JpClassify.Category.word :=
  jp_cardinal_beats_word (fun _ => true) rfl rfl

/-! ## Claim C4 -/

/-- Claim C4, counterexample: the cache archive key does not encode the
language of this grammar (Japanese) — at `input_case = "lower_cased"` the file
name is `en_itn_lower_cased.far`, which contains neither "ja" nor "jp". -/
theorem jp_far_name_not_japanese :
    JpClassify.far_file_name "lower_cased" = "en_itn_lower_cased.far" ∧
    ¬ str "ja" <:+: str (JpClassify.far_file_name "lower_cased") ∧
    ¬ str "jp" <:+: str (JpClassify.far_file_name "lower_cased") := by
  decide

/-- Claim C4 as amended: for both supported case modes the archive key encodes
the ITN direction and the input case, but hard-codes the language code "en"
(English) instead of the language of this grammar. -/
theorem jp_far_name_keyed_en_itn_case :
    ∀ input_case : String, input_case = "lower_cased" ∨ input_case = "cased" →
      (str "en_" <+: str (JpClassify.far_file_name input_case) ∧
        str "itn" <:+: str (JpClassify.far_file_name input_case) ∧
        str input_case <:+: str (JpClassify.far_file_name input_case) ∧
        ¬ str "ja" <:+: str (JpClassify.far_file_name input_case) ∧
        ¬ str "jp" <:+: str (JpClassify.far_file_name input_case)) := by
  rintro input_case (rfl | rfl) <;> decide

/-- Witness for the amended claim C4 at the default case mode. -/
theorem jp_far_name_keyed_en_itn_case_witness :
    str "en_" <+: str (JpClassify.far_file_name "lower_cased") ∧
    str "itn" <:+: str (JpClassify.far_file_name "lower_cased") ∧
    str "lower_cased" <:+: str (JpClassify.far_file_name "lower_cased") ∧
    ¬ str "ja" <:+: str (JpClassify.far_file_name "lower_cased") ∧
    ¬ str "jp" <:+: str (JpClassify.far_file_name "lower_cased") :=
  jp_far_name_keyed_en_itn_case "lower_cased" (Or.inl rfl)

/-! ## Claim C6 -/

set_option maxHeartbeats 2000000

/-- Claim C6: on the tagged token
`electronic \x7b username: "abc" domain: "hotmail.com" \x7d` the verbalizer
produces `a b c at hotmail punkt com` (username spelled with spaces, "at"
inserted, "hotmail" looked up as a single server word, the internal period
rendered "punkt"); the complete output set is listed exactly, and the claimed
output is the strict minimum-weight one. -/
theorem de_electronic_hotmail_roundtrip :
    completeResults DeElectronic.electronicFst
        (str "electronic \x7b username: \"abc\" domain: \"hotmail.com\" \x7d") =
      [(str "a b c at h o t m a i l punkt c o m", 11),
        (str "a b c at h o t m a i l punkt com", 8),
        (str "a b c at hotmail punkt c o m", 4),
        (str "a b c at hotmail punkt com", 1)] ∧
    ((completeResults DeElectronic.electronicFst
        (str "electronic \x7b username: \"abc\" domain: \"hotmail.com\" \x7d")).all
      (fun p => p = (str "a b c at hotmail punkt com", 1) ∨ 1 < p.2)) = true := by
  decide

/-! ## Claim C7 -/

/-- Claim C7: the final rewrite pass of the electronic verbalizer rewrites a
spelled-out " punkt" immediately before end of string to a literal period,
and leaves any string with no string-final " punkt" (in particular one with
only internal occurrences) unchanged. -/
theorem de_punkt_final_rewrite :
    (∀ ys : List Char,
      DeElectronic.preserve_final_period (ys ++ str " punkt") = ys ++ str ".") ∧
    ∀ cs : List Char, ¬ (str " punkt" <:+ cs) →
      DeElectronic.preserve_final_period cs = cs :=
  ⟨fun ys => cdrewriteEOS_at_end (by decide) ys,
    fun cs h => cdrewriteEOS_no_suffix cs h⟩

/-- Witness for claim C7: a sentence-final " punkt" is rewritten to ".", and a
string whose "punkt" is not string-final is unchanged. -/
theorem de_punkt_final_rewrite_witness :
    DeElectronic.preserve_final_period (str "w w w punkt de" ++ str " punkt") =
      str "w w w punkt de" ++ str "." ∧
    DeElectronic.preserve_final_period (str "hotmail punkt com") = str "hotmail punkt com" :=
  ⟨de_punkt_final_rewrite.1 (str "w w w punkt de"),
    de_punkt_final_rewrite.2 (str "hotmail punkt com") (by decide)⟩

/-! ## Characterization of the fraction verbalizer graph -/

theorem mem_integer_component {cs : List Char} {q : TRes} :
    q ∈ JaFraction.integer_component cs ↔
      ((∃ V rest, cs = str "integer_part: \"" ++ (V ++ '"' :: rest) ∧
          (∀ c ∈ V, c ≠ '"') ∧ q = (V, 0, rest)) ∨
        ∃ S V rest,
          cs = str "negative: \"" ++ (S ++ '"' :: (' ' :: (str "integer_part: \"" ++ (V ++ '"' :: rest)))) ∧
          (∀ c ∈ S, c ≠ '"') ∧ (∀ c ∈ V, c ≠ '"') ∧ q = (S ++ V, 0, rest)) := by
  rw [JaFraction.integer_component, mem_tunion]
  constructor
  · rintro (h | h)
    · exact Or.inl (mem_field_del.1 h)
    · right
      rw [mem_tseq] at h
      rcases h with ⟨p1, hp1, p2, hp2, hqe⟩
      rw [JaFraction.sign_component] at hp1
      rcases mem_field_del.1 hp1 with ⟨S, r1, rfl, hS, rfl⟩
      rw [mem_tseq] at hp2
      rcases hp2 with ⟨p3, hp3, p4, hp4, hp2e⟩
      rw [pdelete, mem_cross] at hp3
      rcases hp3 with ⟨⟨r2, rfl⟩, rfl⟩
      simp only [List.drop_left] at hp4 hp2e
      rcases mem_field_del.1 hp4 with ⟨V, rest, rfl, hV, rfl⟩
      refine ⟨S, V, rest, ?_, hS, hV, ?_⟩
      · have hsp : str " " ++ (str "integer_part: \"" ++ (V ++ '"' :: rest)) =
            ' ' :: (str "integer_part: \"" ++ (V ++ '"' :: rest)) := rfl
        rw [hsp]
      · rw [hqe, hp2e]
        simp
  · rintro (⟨V, rest, rfl, hV, rfl⟩ | ⟨S, V, rest, rfl, hS, hV, rfl⟩)
    · exact Or.inl (mem_field_del.2 ⟨V, rest, rfl, hV, rfl⟩)
    · right
      rw [mem_tseq]
      refine ⟨(S, 0, ' ' :: (str "integer_part: \"" ++ (V ++ '"' :: rest))), ?_,
        (V, 0, rest), ?_, by simp⟩
      · rw [JaFraction.sign_component]
        exact mem_field_del.2 ⟨S, _, rfl, hS, rfl⟩
      · rw [mem_tseq]
        refine ⟨([], 0, str "integer_part: \"" ++ (V ++ '"' :: rest)), ?_,
          (V, 0, rest), ?_, by simp⟩
        · rw [pdelete]
          have hsp : str " " ++ (str "integer_part: \"" ++ (V ++ '"' :: rest)) =
              ' ' :: (str "integer_part: \"" ++ (V ++ '"' :: rest)) := rfl
          rw [← hsp]
          exact mem_cross_append.2 rfl
        · exact mem_field_del.2 ⟨V, rest, rfl, hV, rfl⟩

theorem mem_int_unit {cs : List Char} {q : TRes} :
    q ∈ tseq JaFraction.integer_component (tseq (pdelete (str " ")) (pinsert (str " "))) cs ↔
      ((∃ V m, cs = str "integer_part: \"" ++ (V ++ '"' :: ' ' :: m) ∧
          (∀ c ∈ V, c ≠ '"') ∧ q = (V ++ [' '], 0, m)) ∨
        ∃ S V m,
          cs = str "negative: \"" ++ (S ++ '"' :: (' ' :: (str "integer_part: \"" ++ (V ++ '"' :: ' ' :: m)))) ∧
          (∀ c ∈ S, c ≠ '"') ∧ (∀ c ∈ V, c ≠ '"') ∧ q = (S ++ V ++ [' '], 0, m)) := by
  constructor
  · intro h
    rw [mem_tseq] at h
    rcases h with ⟨p1, hp1, p2, hp2, hqe⟩
    rw [mem_tseq] at hp2
    rcases hp2 with ⟨p3, hp3, p4, hp4, hp2e⟩
    rw [pdelete, mem_cross] at hp3
    rcases hp3 with ⟨⟨m, hm⟩, rfl⟩
    rw [pinsert, mem_cross] at hp4
    rcases hp4 with ⟨_, rfl⟩
    rcases mem_integer_component.1 hp1 with ⟨V, rest, hcs, hV, he⟩ | ⟨S, V, rest, hcs, hS, hV, he⟩
    · left
      obtain rfl := he
      have hm' : str " " ++ m = rest := hm
      have hsp : str " " ++ m = ' ' :: m := rfl
      refine ⟨V, m, ?_, hV, ?_⟩
      · rw [hcs, ← hm', hsp]
      · rw [hqe, hp2e]
        rw [← hm']
        simp [List.drop_left, str]
    · right
      obtain rfl := he
      have hm' : str " " ++ m = rest := hm
      have hsp : str " " ++ m = ' ' :: m := rfl
      refine ⟨S, V, m, ?_, hS, hV, ?_⟩
      · rw [hcs, ← hm', hsp]
      · rw [hqe, hp2e]
        rw [← hm']
        simp [List.drop_left, str]
  · rintro (⟨V, m, rfl, hV, rfl⟩ | ⟨S, V, m, rfl, hS, hV, rfl⟩)
    · rw [mem_tseq]
      refine ⟨(V, 0, ' ' :: m), ?_, ([' '], 0, m), ?_, by simp⟩
      · exact mem_integer_component.2 (Or.inl ⟨V, ' ' :: m, by simp, hV, rfl⟩)
      · rw [mem_tseq]
        refine ⟨([], 0, m), ?_, ([' '], 0, m), ?_, by simp⟩
        · rw [pdelete]
          have hsp : str " " ++ m = ' ' :: m := rfl
          rw [← hsp]
          exact mem_cross_append.2 rfl
        · rw [pinsert, mem_cross]
          exact ⟨List.nil_prefix, by simp [str]⟩
    · rw [mem_tseq]
      refine ⟨(S ++ V, 0, ' ' :: m), ?_, ([' '], 0, m), ?_, by simp⟩
      · refine mem_integer_component.2 (Or.inr ⟨S, V, ' ' :: m, by simp, hS, hV, rfl⟩)
      · rw [mem_tseq]
        refine ⟨([], 0, m), ?_, ([' '], 0, m), ?_, by simp⟩
        · rw [pdelete]
          have hsp : str " " ++ m = ' ' :: m := rfl
          rw [← hsp]
          exact mem_cross_append.2 rfl
        · rw [pinsert, mem_cross]
          exact ⟨List.nil_prefix, by simp [str]⟩

theorem mem_sign_unit {cs : List Char} {q : TRes} :
    q ∈ tseq JaFraction.sign_component (pdelete (str " ")) cs ↔
      ∃ S m, cs = str "negative: \"" ++ (S ++ '"' :: ' ' :: m) ∧
        (∀ c ∈ S, c ≠ '"') ∧ q = (S, 0, m) := by
  constructor
  · intro h
    rw [mem_tseq] at h
    rcases h with ⟨p1, hp1, p2, hp2, hqe⟩
    rw [JaFraction.sign_component] at hp1
    rcases mem_field_del.1 hp1 with ⟨S, r1, rfl, hS, rfl⟩
    rw [pdelete, mem_cross] at hp2
    rcases hp2 with ⟨⟨m, hm⟩, rfl⟩
    have hm' : str " " ++ m = r1 := hm
    have hsp : str " " ++ m = ' ' :: m := rfl
    refine ⟨S, m, ?_, hS, ?_⟩
    · rw [← hm', hsp]
    · rw [hqe, ← hm']
      simp [List.drop_left]
  · rintro ⟨S, m, rfl, hS, rfl⟩
    rw [mem_tseq]
    refine ⟨(S, 0, ' ' :: m), ?_, ([], 0, m), ?_, by simp⟩
    · rw [JaFraction.sign_component]
      exact mem_field_del.2 ⟨S, ' ' :: m, by simp, hS, rfl⟩
    · rw [pdelete]
      have hsp : str " " ++ m = ' ' :: m := rfl
      rw [← hsp]
      exact mem_cross_append.2 rfl

theorem starRel_int_unit {cs : List Char} {q : TRes} :
    StarRel (tseq JaFraction.integer_component (tseq (pdelete (str " ")) (pinsert (str " ")))) cs q ↔
      ∃ m o rest, cs = m ++ rest ∧ IntSeq m o ∧ q = (o, 0, rest) := by
  constructor
  · intro h
    induction h with
    | done cs => exact ⟨[], [], cs, by simp, IntSeq.nil, by simp⟩
    | step hmem hlen hst ih =>
      rename_i cs o w r o2 w2 r2
      rcases ih with ⟨m2, o2', rest, hsplit, hseq, heq⟩
      simp only [Prod.mk.injEq] at heq
      obtain ⟨rfl, rfl, rfl⟩ := heq
      rcases mem_int_unit.1 hmem with ⟨V, m, hcs, hV, heq2⟩ | ⟨S, V, m, hcs, hS, hV, heq2⟩
      · simp only [Prod.mk.injEq] at heq2
        obtain ⟨rfl, rfl, rfl⟩ := heq2
        refine ⟨str "integer_part: \"" ++ (V ++ '"' :: ' ' :: m2), V ++ ' ' :: o2, r2,
          ?_, IntSeq.plain hV hseq, ?_⟩
        · rw [hcs, hsplit]
          simp
        · simp
      · simp only [Prod.mk.injEq] at heq2
        obtain ⟨rfl, rfl, rfl⟩ := heq2
        refine ⟨str "negative: \"" ++ (S ++ '"' :: ' ' :: (str "integer_part: \"" ++ (V ++ '"' :: ' ' :: m2))),
          S ++ V ++ ' ' :: o2, r2, ?_, IntSeq.signed hS hV hseq, ?_⟩
        · rw [hcs, hsplit]
          simp
        · simp
  · rintro ⟨m, o, rest, rfl, hseq, rfl⟩
    induction hseq with
    | nil => exact StarRel.done rest
    | plain hV hseq2 ih =>
      rename_i V m2 o2
      have hmem : (V ++ [' '], 0, m2 ++ rest) ∈
          tseq JaFraction.integer_component (tseq (pdelete (str " ")) (pinsert (str " ")))
            ((str "integer_part: \"" ++ V ++ '"' :: ' ' :: m2) ++ rest) :=
        mem_int_unit.2 (Or.inl ⟨V, m2 ++ rest, by simp, hV, rfl⟩)
      have hlen : (m2 ++ rest).length <
          ((str "integer_part: \"" ++ V ++ '"' :: ' ' :: m2) ++ rest).length := by
        simp [str]
        omega
      have := StarRel.step hmem hlen ih
      simpa using this
    | signed hS hV hseq2 ih =>
      rename_i S V m2 o2
      have hmem : (S ++ V ++ [' '], 0, m2 ++ rest) ∈
          tseq JaFraction.integer_component (tseq (pdelete (str " ")) (pinsert (str " ")))
            ((str "negative: \"" ++ S ++ '"' :: ' ' :: (str "integer_part: \"" ++ V ++ '"' :: ' ' :: m2)) ++ rest) :=
        mem_int_unit.2 (Or.inr ⟨S, V, m2 ++ rest, by simp, hS, hV, rfl⟩)
      have hlen : (m2 ++ rest).length <
          ((str "negative: \"" ++ S ++ '"' :: ' ' :: (str "integer_part: \"" ++ V ++ '"' :: ' ' :: m2)) ++ rest).length := by
        simp [str]
        omega
      have := StarRel.step hmem hlen ih
      simpa using this

theorem starRel_sign_unit {cs : List Char} {q : TRes} :
    StarRel (tseq JaFraction.sign_component (pdelete (str " "))) cs q ↔
      ∃ m o rest, cs = m ++ rest ∧ SignSeq m o ∧ q = (o, 0, rest) := by
  constructor
  · intro h
    induction h with
    | done cs => exact ⟨[], [], cs, by simp, SignSeq.nil, by simp⟩
    | step hmem hlen hst ih =>
      rename_i cs o w r o2 w2 r2
      rcases ih with ⟨m2, o2', rest, hsplit, hseq, heq⟩
      simp only [Prod.mk.injEq] at heq
      obtain ⟨rfl, rfl, rfl⟩ := heq
      rcases mem_sign_unit.1 hmem with ⟨S, m, hcs, hS, heq2⟩
      simp only [Prod.mk.injEq] at heq2
      obtain ⟨rfl, rfl, rfl⟩ := heq2
      refine ⟨str "negative: \"" ++ (o ++ '"' :: ' ' :: m2), o ++ o2, r2,
        ?_, SignSeq.cons hS hseq, ?_⟩
      · rw [hcs, hsplit]
        simp
      · simp
  · rintro ⟨m, o, rest, rfl, hseq, rfl⟩
    induction hseq with
    | nil => exact StarRel.done rest
    | cons hS hseq2 ih =>
      rename_i S m2 o2
      have hmem : (S, 0, m2 ++ rest) ∈ tseq JaFraction.sign_component (pdelete (str " "))
          ((str "negative: \"" ++ (S ++ '"' :: ' ' :: m2)) ++ rest) :=
        mem_sign_unit.2 ⟨S, m2 ++ rest, by simp, hS, rfl⟩
      have hlen : (m2 ++ rest).length <
          ((str "negative: \"" ++ (S ++ '"' :: ' ' :: m2)) ++ rest).length := by
        simp [str]
        omega
      have := StarRel.step hmem hlen ih
      simpa using this

theorem mem_graph {cs : List Char} {q : TRes} :
    q ∈ JaFraction.graph cs ↔
      ∃ mi oi ms os N D rest,
        cs = mi ++ (ms ++ (str "numerator: \"" ++
          (N ++ '"' :: ' ' :: (str "denominator: \"" ++ (D ++ '"' :: rest))))) ∧
        IntSeq mi oi ∧ SignSeq ms os ∧ (∀ c ∈ N, c ≠ '"') ∧ (∀ c ∈ D, c ≠ '"') ∧
        q = (oi ++ (os ++ (N ++ '/' :: D)), 0, rest) := by
  constructor
  · intro h
    rw [JaFraction.graph, mem_tseq] at h
    rcases h with ⟨p1, hp1, p2, hp2, hqe⟩
    rw [mem_star, starRel_int_unit] at hp1
    rcases hp1 with ⟨mi, oi, rest1, rfl, hInt, rfl⟩
    dsimp only at hp2 hqe
    rw [mem_tseq] at hp2
    rcases hp2 with ⟨p3, hp3, p4, hp4, hp2e⟩
    rw [mem_star, starRel_sign_unit] at hp3
    rcases hp3 with ⟨ms, os, rest2, rfl, hSign, rfl⟩
    dsimp only at hp4 hp2e
    rw [mem_tseq] at hp4
    rcases hp4 with ⟨p5, hp5, p6, hp6, hp4e⟩
    rw [JaFraction.numerator_component] at hp5
    rcases mem_field_del.1 hp5 with ⟨N, r3, rfl, hN, rfl⟩
    dsimp only at hp6 hp4e
    rw [mem_tseq] at hp6
    rcases hp6 with ⟨p7, hp7, p8, hp8, hp6e⟩
    rw [pdelete, mem_cross] at hp7
    rcases hp7 with ⟨⟨r4, rfl⟩, rfl⟩
    dsimp only at hp8 hp6e
    simp only [List.drop_left] at hp8 hp6e
    rw [mem_tseq] at hp8
    rcases hp8 with ⟨p9, hp9, p10, hp10, hp8e⟩
    rw [pinsert, mem_cross] at hp9
    rcases hp9 with ⟨_, rfl⟩
    dsimp only at hp10 hp8e
    simp only [List.length_nil, List.drop_zero] at hp10 hp8e
    rw [JaFraction.denominator_component] at hp10
    rcases mem_field_del.1 hp10 with ⟨D, rest, rfl, hD, rfl⟩
    refine ⟨mi, oi, ms, os, N, D, rest, ?_, hInt, hSign, hN, hD, ?_⟩
    · have hsp : str " " ++ (str "denominator: \"" ++ (D ++ '"' :: rest)) =
          ' ' :: (str "denominator: \"" ++ (D ++ '"' :: rest)) := rfl
      rw [hsp]
    · rw [hqe, hp2e, hp4e, hp6e, hp8e]
      have hsl : str "/" = ['/'] := rfl
      simp [hsl]
  · rintro ⟨mi, oi, ms, os, N, D, rest, rfl, hInt, hSign, hN, hD, rfl⟩
    rw [JaFraction.graph, mem_tseq]
    refine ⟨(oi, 0, ms ++ (str "numerator: \"" ++
        (N ++ '"' :: ' ' :: (str "denominator: \"" ++ (D ++ '"' :: rest))))), ?_,
      (os ++ (N ++ '/' :: D), 0, rest), ?_, by simp⟩
    · rw [mem_star, starRel_int_unit]
      exact ⟨mi, oi, _, rfl, hInt, rfl⟩
    · rw [mem_tseq]
      refine ⟨(os, 0, str "numerator: \"" ++
          (N ++ '"' :: ' ' :: (str "denominator: \"" ++ (D ++ '"' :: rest)))), ?_,
        (N ++ '/' :: D, 0, rest), ?_, by simp⟩
      · rw [mem_star, starRel_sign_unit]
        exact ⟨ms, os, _, rfl, hSign, rfl⟩
      · rw [mem_tseq]
        refine ⟨(N, 0, ' ' :: (str "denominator: \"" ++ (D ++ '"' :: rest))), ?_,
          ('/' :: D, 0, rest), ?_, by simp⟩
        · rw [JaFraction.numerator_component]
          exact mem_field_del.2 ⟨N, _, rfl, hN, rfl⟩
        · rw [mem_tseq]
          refine ⟨([], 0, str "denominator: \"" ++ (D ++ '"' :: rest)), ?_,
            ('/' :: D, 0, rest), ?_, by simp⟩
          · rw [pdelete]
            have hsp : str " " ++ (str "denominator: \"" ++ (D ++ '"' :: rest)) =
                ' ' :: (str "denominator: \"" ++ (D ++ '"' :: rest)) := rfl
            rw [← hsp]
            exact mem_cross_append.2 rfl
          · rw [mem_tseq]
            refine ⟨(['/'], 0, str "denominator: \"" ++ (D ++ '"' :: rest)), ?_,
              (D, 0, rest), ?_, by simp⟩
            · rw [pinsert, mem_cross]
              exact ⟨List.nil_prefix, by simp [str]⟩
            · rw [JaFraction.denominator_component]
              exact mem_field_del.2 ⟨D, rest, rfl, hD, rfl⟩

/-! ## Claim C9 -/

theorem intSeq_rep : ∀ n : Nat, IntSeq (rep (str "integer_part: \"1\" ") n) (rep (str "1 ") n) := by
  intro n
  induction n with
  | zero => exact IntSeq.nil
  | succ n ih =>
    have h := @IntSeq.plain ['1'] (rep (str "integer_part: \"1\" ") n)
      (rep (str "1 ") n) (by decide) ih
    exact h

theorem signSeq_rep : ∀ m : Nat, SignSeq (rep (str "negative: \"-\" ") m) (rep (str "-") m) := by
  intro m
  induction m with
  | zero => exact SignSeq.nil
  | succ m ih =>
    have h := @SignSeq.cons ['-'] (rep (str "negative: \"-\" ") m)
      (rep (str "-") m) (by decide) ih
    exact h

theorem nbsp_rep (x : List Char) (k : Nat) :
    nbsp_to_space (rep x k) = rep (nbsp_to_space x) k := by
  induction k with
  | zero => rfl
  | succ k ih => simp [rep, nbsp_to_space, List.map_append] at ih ⊢; exact ih

/-- Claim C9: the fraction verbalizer's `integer_part` and `negative`
components are built with unbounded closures: for every `n` and `m` it accepts
a tagged fraction token with `n` consecutive `integer_part: "1"` fields and
`m` consecutive `negative: "-"` fields before the numerator, rendering each
value in sequence; in particular tokens with two or more `integer_part` fields
are accepted rather than rejected. -/
theorem ja_fraction_unbounded_field_repetition :
    ∀ n m : Nat,
      (rep (str "1 ") n ++ (rep (str "-") m ++ str "3/4"), 0) ∈
        completeResults JaFraction.fractionFst
          (str "fraction \x7b " ++ (rep (str "integer_part: \"1\" ") n ++
            (rep (str "negative: \"-\" ") m ++ str "numerator: \"3\" denominator: \"4\" \x7d"))) := by
  intro n m
  rw [mem_completeResults]
  have hin : str "fraction \x7b " ++ (rep (str "integer_part: \"1\" ") n ++
      (rep (str "negative: \"-\" ") m ++ str "numerator: \"3\" denominator: \"4\" \x7d")) =
      str "fraction" ++ ' ' :: '\x7b' :: ' ' :: (rep (str "integer_part: \"1\" ") n ++
        (rep (str "negative: \"-\" ") m ++
          (str "numerator: \"3\" denominator: \"4\"" ++ (' ' :: '\x7d' :: [])))) := rfl
  rw [hin]
  have hsplit : nbsp_to_space (rep (str "1 ") n ++ (rep (str "-") m ++ str "3/4")) =
      nbsp_to_space (rep (str "1 ") n) ++
        (nbsp_to_space (rep (str "-") m) ++ nbsp_to_space (str "3/4")) := by
    simp [nbsp_to_space, List.map_append]
  have e1 : nbsp_to_space (rep (str "1 ") n) = rep (str "1 ") n := by
    rw [nbsp_rep]
    rfl
  have e2 : nbsp_to_space (rep (str "-") m) = rep (str "-") m := by
    rw [nbsp_rep]
    rfl
  have hout : rep (str "1 ") n ++ (rep (str "-") m ++ str "3/4") =
      nbsp_to_space (rep (str "1 ") n ++ (rep (str "-") m ++ str "3/4")) := by
    rw [hsplit, e1, e2]
    rfl
  rw [hout]
  exact delete_tokens_intro (mem_graph.2
    ⟨rep (str "integer_part: \"1\" ") n, rep (str "1 ") n,
      rep (str "negative: \"-\" ") m, rep (str "-") m, ['3'], ['4'], ' ' :: '\x7d' :: [],
      rfl, intSeq_rep n, signSeq_rep m, by decide, by decide, rfl⟩)

/-! ## Claim C8: rejection of fraction tokens with a missing field -/

theorem no_num_core :
    ∀ {mi oi : List Char}, IntSeq mi oi →
    ∀ {ms os : List Char}, SignSeq ms os →
    ∀ {D rest mi2 oi2 ms2 os2 N2 D2 rest2 : List Char},
      IntSeq mi2 oi2 → SignSeq ms2 os2 →
      mi ++ (ms ++ (str "denominator: \"" ++ (D ++ '"' :: rest))) =
        mi2 ++ (ms2 ++ (str "numerator: \"" ++
          (N2 ++ '"' :: ' ' :: (str "denominator: \"" ++ (D2 ++ '"' :: rest2))))) →
      (∀ c ∈ D, c ≠ '"') → (∀ c ∈ N2, c ≠ '"') →
      False := by
  intro mi oi hInt
  induction hInt with
  | nil =>
    intro ms os hSign
    induction hSign with
    | nil =>
      intro D rest mi2 oi2 ms2 os2 N2 D2 rest2 hInt2 hSign2 E hD hN2
      cases hInt2 with
      | nil =>
        cases hSign2 with
        | nil =>
          simp only [List.nil_append, List.append_assoc, List.cons_append] at E
          exact concrete_append_ne (by decide) (by decide) E
        | cons hS2 hseq2 =>
          simp only [List.nil_append, List.append_assoc, List.cons_append] at E
          exact concrete_append_ne (by decide) (by decide) E
      | plain hV2 hseq2 =>
        simp only [List.nil_append, List.append_assoc, List.cons_append] at E
        exact concrete_append_ne (by decide) (by decide) E
      | signed hS2 hV2 hseq2 =>
        simp only [List.nil_append, List.append_assoc, List.cons_append] at E
        exact concrete_append_ne (by decide) (by decide) E
    | cons hS hseq ihS =>
      rename_i S m2 o2
      intro D rest mi2 oi2 ms2 os2 N2 D2 rest2 hInt2 hSign2 E hD hN2
      cases hInt2 with
      | nil =>
        cases hSign2 with
        | nil =>
          simp only [List.nil_append, List.append_assoc, List.cons_append] at E
          exact concrete_append_ne (by decide) (by decide) E
        | cons hS2 hseq2 =>
          rename_i S2 m2' o2'
          simp only [List.nil_append, List.append_assoc, List.cons_append] at E
          have E2 := List.append_cancel_left E
          obtain ⟨rfl, E3⟩ := append_sep_inj hS hS2 E2
          injection E3 with _ E4
          exact ihS IntSeq.nil hseq2 (by simpa using E4) hD hN2
      | plain hV2 hseq2 =>
        simp only [List.nil_append, List.append_assoc, List.cons_append] at E
        exact concrete_append_ne (by decide) (by decide) E
      | signed hS2 hV2 hseq2 =>
        rename_i S2 V2 m2' o2'
        simp only [List.nil_append, List.append_assoc, List.cons_append] at E
        have E2 := List.append_cancel_left E
        obtain ⟨rfl, E3⟩ := append_sep_inj hS hS2 E2
        injection E3 with _ E4
        exact ihS (IntSeq.plain hV2 hseq2) hSign2 (by simpa [List.append_assoc] using E4) hD hN2
  | plain hV hseq ihI =>
    rename_i V m2 o2
    intro ms os hSign
    intro D rest mi2 oi2 ms2 os2 N2 D2 rest2 hInt2 hSign2 E hD hN2
    cases hInt2 with
    | nil =>
      cases hSign2 with
      | nil =>
        simp only [List.nil_append, List.append_assoc, List.cons_append] at E
        exact concrete_append_ne (by decide) (by decide) E.symm
      | cons hS2 hseq2 =>
        simp only [List.nil_append, List.append_assoc, List.cons_append] at E
        exact concrete_append_ne (by decide) (by decide) E.symm
    | plain hV2 hseq2 =>
      rename_i V2 m2' o2'
      simp only [List.nil_append, List.append_assoc, List.cons_append] at E
      have E2 := List.append_cancel_left E
      obtain ⟨rfl, E3⟩ := append_sep_inj hV hV2 E2
      injection E3 with _ E4
      exact ihI hSign hseq2 hSign2 (by simpa using E4) hD hN2
    | signed hS2 hV2 hseq2 =>
      simp only [List.nil_append, List.append_assoc, List.cons_append] at E
      exact concrete_append_ne (by decide) (by decide) E.symm
  | signed hS hV hseq ihI =>
    rename_i S V m2 o2
    intro ms os hSign
    intro D rest mi2 oi2 ms2 os2 N2 D2 rest2 hInt2 hSign2 E hD hN2
    cases hInt2 with
    | nil =>
      cases hSign2 with
      | nil =>
        simp only [List.nil_append, List.append_assoc, List.cons_append] at E
        exact concrete_append_ne (by decide) (by decide) E.symm
      | cons hS2 hseq2 =>
        rename_i S2 m2' o2'
        simp only [List.nil_append, List.append_assoc, List.cons_append] at E
        have E2 := List.append_cancel_left E
        obtain ⟨rfl, E3⟩ := append_sep_inj hS hS2 E2
        injection E3 with _ E4
        cases hseq2 with
        | nil =>
          simp only [List.nil_append, List.append_assoc, List.cons_append] at E4
          exact concrete_append_ne (by decide) (by decide) E4
        | cons hS3 hseq3 =>
          simp only [List.nil_append, List.append_assoc, List.cons_append] at E4
          exact concrete_append_ne (by decide) (by decide) E4
    | plain hV2 hseq2 =>
      simp only [List.nil_append, List.append_assoc, List.cons_append] at E
      exact concrete_append_ne (by decide) (by decide) E
    | signed hS2 hV2 hseq2 =>
      rename_i S2 V2 m2' o2'
      simp only [List.nil_append, List.append_assoc, List.cons_append] at E
      have E2 := List.append_cancel_left E
      obtain ⟨rfl, E3⟩ := append_sep_inj hS hS2 E2
      injection E3 with _ E4
      have E5 := List.append_cancel_left E4
      obtain ⟨rfl, E6⟩ := append_sep_inj hV hV2 E5
      injection E6 with _ E7
      exact ihI hSign hseq2 hSign2 (by simpa using E7) hD hN2

theorem no_den_core :
    ∀ {mi oi : List Char}, IntSeq mi oi →
    ∀ {ms os : List Char}, SignSeq ms os →
    ∀ {N mi2 oi2 ms2 os2 N2 D2 rest2 : List Char},
      IntSeq mi2 oi2 → SignSeq ms2 os2 →
      mi ++ (ms ++ (str "numerator: \"" ++ (N ++ '"' :: ' ' :: '\x7d' :: []))) =
        mi2 ++ (ms2 ++ (str "numerator: \"" ++
          (N2 ++ '"' :: ' ' :: (str "denominator: \"" ++ (D2 ++ '"' :: rest2))))) →
      (∀ c ∈ N, c ≠ '"') → (∀ c ∈ N2, c ≠ '"') →
      False := by
  intro mi oi hInt
  induction hInt with
  | nil =>
    intro ms os hSign
    induction hSign with
    | nil =>
      intro N mi2 oi2 ms2 os2 N2 D2 rest2 hInt2 hSign2 E hN hN2
      cases hInt2 with
      | nil =>
        cases hSign2 with
        | nil =>
          simp only [List.nil_append, List.append_assoc, List.cons_append] at E
          have E2 := List.append_cancel_left E
          obtain ⟨rfl, E3⟩ := append_sep_inj hN hN2 E2
          injection E3 with _ E4
          have hz : '\x7d' :: ([] : List Char) = str "\x7d" ++ ([] : List Char) := rfl
          rw [hz] at E4
          exact concrete_append_ne (by decide) (by decide) E4
        | cons hS2 hseq2 =>
          simp only [List.nil_append, List.append_assoc, List.cons_append] at E
          exact concrete_append_ne (by decide) (by decide) E
      | plain hV2 hseq2 =>
        simp only [List.nil_append, List.append_assoc, List.cons_append] at E
        exact concrete_append_ne (by decide) (by decide) E
      | signed hS2 hV2 hseq2 =>
        simp only [List.nil_append, List.append_assoc, List.cons_append] at E
        exact concrete_append_ne (by decide) (by decide) E
    | cons hS hseq ihS =>
      rename_i S m2 o2
      intro N mi2 oi2 ms2 os2 N2 D2 rest2 hInt2 hSign2 E hN hN2
      cases hInt2 with
      | nil =>
        cases hSign2 with
        | nil =>
          simp only [List.nil_append, List.append_assoc, List.cons_append] at E
          exact concrete_append_ne (by decide) (by decide) E
        | cons hS2 hseq2 =>
          rename_i S2 m2' o2'
          simp only [List.nil_append, List.append_assoc, List.cons_append] at E
          have E2 := List.append_cancel_left E
          obtain ⟨rfl, E3⟩ := append_sep_inj hS hS2 E2
          injection E3 with _ E4
          exact ihS IntSeq.nil hseq2 (by simpa using E4) hN hN2
      | plain hV2 hseq2 =>
        simp only [List.nil_append, List.append_assoc, List.cons_append] at E
        exact concrete_append_ne (by decide) (by decide) E
      | signed hS2 hV2 hseq2 =>
        rename_i S2 V2 m2' o2'
        simp only [List.nil_append, List.append_assoc, List.cons_append] at E
        have E2 := List.append_cancel_left E
        obtain ⟨rfl, E3⟩ := append_sep_inj hS hS2 E2
        injection E3 with _ E4
        exact ihS (IntSeq.plain hV2 hseq2) hSign2 (by simpa [List.append_assoc] using E4) hN hN2
  | plain hV hseq ihI =>
    rename_i V m2 o2
    intro ms os hSign
    intro N mi2 oi2 ms2 os2 N2 D2 rest2 hInt2 hSign2 E hN hN2
    cases hInt2 with
    | nil =>
      cases hSign2 with
      | nil =>
        simp only [List.nil_append, List.append_assoc, List.cons_append] at E
        exact concrete_append_ne (by decide) (by decide) E.symm
      | cons hS2 hseq2 =>
        simp only [List.nil_append, List.append_assoc, List.cons_append] at E
        exact concrete_append_ne (by decide) (by decide) E.symm
    | plain hV2 hseq2 =>
      rename_i V2 m2' o2'
      simp only [List.nil_append, List.append_assoc, List.cons_append] at E
      have E2 := List.append_cancel_left E
      obtain ⟨rfl, E3⟩ := append_sep_inj hV hV2 E2
      injection E3 with _ E4
      exact ihI hSign hseq2 hSign2 (by simpa using E4) hN hN2
    | signed hS2 hV2 hseq2 =>
      simp only [List.nil_append, List.append_assoc, List.cons_append] at E
      exact concrete_append_ne (by decide) (by decide) E.symm
  | signed hS hV hseq ihI =>
    rename_i S V m2 o2
    intro ms os hSign
    intro N mi2 oi2 ms2 os2 N2 D2 rest2 hInt2 hSign2 E hN hN2
    cases hInt2 with
    | nil =>
      cases hSign2 with
      | nil =>
        simp only [List.nil_append, List.append_assoc, List.cons_append] at E
        exact concrete_append_ne (by decide) (by decide) E.symm
      | cons hS2 hseq2 =>
        rename_i S2 m2' o2'
        simp only [List.nil_append, List.append_assoc, List.cons_append] at E
        have E2 := List.append_cancel_left E
        obtain ⟨rfl, E3⟩ := append_sep_inj hS hS2 E2
        injection E3 with _ E4
        cases hseq2 with
        | nil =>
          simp only [List.nil_append, List.append_assoc, List.cons_append] at E4
          exact concrete_append_ne (by decide) (by decide) E4
        | cons hS3 hseq3 =>
          simp only [List.nil_append, List.append_assoc, List.cons_append] at E4
          exact concrete_append_ne (by decide) (by decide) E4
    | plain hV2 hseq2 =>
      simp only [List.nil_append, List.append_assoc, List.cons_append] at E
      exact concrete_append_ne (by decide) (by decide) E
    | signed hS2 hV2 hseq2 =>
      rename_i S2 V2 m2' o2'
      simp only [List.nil_append, List.append_assoc, List.cons_append] at E
      have E2 := List.append_cancel_left E
      obtain ⟨rfl, E3⟩ := append_sep_inj hS hS2 E2
      injection E3 with _ E4
      have E5 := List.append_cancel_left E4
      obtain ⟨rfl, E6⟩ := append_sep_inj hV hV2 E5
      injection E6 with _ E7
      exact ihI hSign hseq2 hSign2 (by simpa using E7) hN hN2

theorem graph_space_head {B : List Char} {q : TRes} : q ∉ JaFraction.graph (' ' :: B) := by
  intro hq
  rcases mem_graph.1 hq with ⟨mi2, oi2, ms2, os2, N2, D2, rest2, E, hInt2, hSign2, _, _, _⟩
  have hsp : (' ' :: B : List Char) = str " " ++ B := rfl
  rw [hsp] at E
  cases hInt2 with
  | nil =>
    cases hSign2 with
    | nil =>
      simp only [List.nil_append, List.append_assoc, List.cons_append] at E
      exact concrete_append_ne (by decide) (by decide) E
    | cons hS2 hseq2 =>
      simp only [List.nil_append, List.append_assoc, List.cons_append] at E
      exact concrete_append_ne (by decide) (by decide) E
  | plain hV2 hseq2 =>
    simp only [List.nil_append, List.append_assoc, List.cons_append] at E
    exact concrete_append_ne (by decide) (by decide) E
  | signed hS2 hV2 hseq2 =>
    simp only [List.nil_append, List.append_assoc, List.cons_append] at E
    exact concrete_append_ne (by decide) (by decide) E

theorem fraction_reject {b : Char} {B' : List Char}
    (hb : isWhite b = false)
    (hB : ∀ q : TRes, q ∉ JaFraction.graph (b :: B')) :
    completeResults JaFraction.fractionFst (str "fraction \x7b " ++ (b :: B')) = [] := by
  apply List.eq_nil_iff_forall_not_mem.2
  intro p hp
  obtain ⟨o, w⟩ := p
  rw [mem_completeResults] at hp
  rcases delete_tokens_inv hp with
    ⟨sp1, sp2, mid, o', w', r, hcs, hsp1, hsp2, hmem, _sp3, _rest, _hr, _hsp3, _hq⟩
  have hfr : str "fraction \x7b " ++ (b :: B') =
      str "fraction" ++ (' ' :: '\x7b' :: ' ' :: b :: B') := rfl
  rw [hfr] at hcs
  have hc2 : sp1 ++ ('\x7b' :: (sp2 ++ mid)) = ' ' :: '\x7b' :: ' ' :: b :: B' :=
    (List.append_cancel_left hcs).symm
  rcases space_split_single hc2 hsp1 (by decide) with hA | hB2
  · injection hA with h1 _
    exact absurd h1 (by decide)
  · injection hB2 with _ hB3
    rcases space_split_single hB3 hsp2 hb with hC | hD2
    · rw [hC] at hmem
      exact graph_space_head hmem
    · rw [hD2] at hmem
      exact hB _ hmem

/-- Claim C8: a tagged fraction token that lacks a `numerator` field or lacks
a `denominator` field is rejected by the fraction verbalizer (no accepting
path), for all quote-free field values and all combinations of the optional
`integer_part` and `negative` fields. -/
theorem ja_fraction_missing_field_rejected :
    ∀ I G N D : List Char,
      (∀ c ∈ I, c ≠ '"') → (∀ c ∈ G, c ≠ '"') → (∀ c ∈ N, c ≠ '"') → (∀ c ∈ D, c ≠ '"') →
      (completeResults JaFraction.fractionFst
          (str "fraction \x7b denominator: \"" ++ (D ++ str "\" \x7d")) = [] ∧
        completeResults JaFraction.fractionFst
          (str "fraction \x7b integer_part: \"" ++ (I ++ (str "\" denominator: \"" ++ (D ++ str "\" \x7d")))) = [] ∧
        completeResults JaFraction.fractionFst
          (str "fraction \x7b negative: \"" ++ (G ++ (str "\" denominator: \"" ++ (D ++ str "\" \x7d")))) = [] ∧
        completeResults JaFraction.fractionFst
          (str "fraction \x7b integer_part: \"" ++ (I ++ (str "\" negative: \"" ++ (G ++ (str "\" denominator: \"" ++ (D ++ str "\" \x7d")))))) = [] ∧
        completeResults JaFraction.fractionFst
          (str "fraction \x7b numerator: \"" ++ (N ++ str "\" \x7d")) = [] ∧
        completeResults JaFraction.fractionFst
          (str "fraction \x7b integer_part: \"" ++ (I ++ (str "\" numerator: \"" ++ (N ++ str "\" \x7d")))) = [] ∧
        completeResults JaFraction.fractionFst
          (str "fraction \x7b negative: \"" ++ (G ++ (str "\" numerator: \"" ++ (N ++ str "\" \x7d")))) = [] ∧
        completeResults JaFraction.fractionFst
          (str "fraction \x7b integer_part: \"" ++ (I ++ (str "\" negative: \"" ++ (G ++ (str "\" numerator: \"" ++ (N ++ str "\" \x7d")))))) = []) := by
  intro I G N D hI hG hN hD
  refine ⟨?_, ?_, ?_, ?_, ?_, ?_, ?_, ?_⟩
  · refine fraction_reject (by decide) ?_
    intro q hq
    rcases mem_graph.1 hq with ⟨mi2, oi2, ms2, os2, N2, D2, rest2, E, hInt2, hSign2, hN2, hD2, _⟩
    have E' : ([] : List Char) ++ (([] : List Char) ++
        (str "denominator: \"" ++ (D ++ '"' :: (' ' :: '\x7d' :: [])))) =
        mi2 ++ (ms2 ++ (str "numerator: \"" ++
          (N2 ++ '"' :: ' ' :: (str "denominator: \"" ++ (D2 ++ '"' :: rest2))))) := by
      simpa using E
    exact no_num_core IntSeq.nil SignSeq.nil hInt2 hSign2 E' hD hN2
  · refine fraction_reject (by decide) ?_
    intro q hq
    rcases mem_graph.1 hq with ⟨mi2, oi2, ms2, os2, N2, D2, rest2, E, hInt2, hSign2, hN2, hD2, _⟩
    have E' : (str "integer_part: \"" ++ I ++ '"' :: ' ' :: []) ++ (([] : List Char) ++
        (str "denominator: \"" ++ (D ++ '"' :: (' ' :: '\x7d' :: [])))) =
        mi2 ++ (ms2 ++ (str "numerator: \"" ++
          (N2 ++ '"' :: ' ' :: (str "denominator: \"" ++ (D2 ++ '"' :: rest2))))) := by
      simpa [List.append_assoc] using E
    exact no_num_core (IntSeq.plain hI IntSeq.nil) SignSeq.nil hInt2 hSign2 E' hD hN2
  · refine fraction_reject (by decide) ?_
    intro q hq
    rcases mem_graph.1 hq with ⟨mi2, oi2, ms2, os2, N2, D2, rest2, E, hInt2, hSign2, hN2, hD2, _⟩
    have E' : ([] : List Char) ++ ((str "negative: \"" ++ G ++ '"' :: ' ' :: []) ++
        (str "denominator: \"" ++ (D ++ '"' :: (' ' :: '\x7d' :: [])))) =
        mi2 ++ (ms2 ++ (str "numerator: \"" ++
          (N2 ++ '"' :: ' ' :: (str "denominator: \"" ++ (D2 ++ '"' :: rest2))))) := by
      simpa [List.append_assoc] using E
    exact no_num_core IntSeq.nil (SignSeq.cons hG SignSeq.nil) hInt2 hSign2 E' hD hN2
  · refine fraction_reject (by decide) ?_
    intro q hq
    rcases mem_graph.1 hq with ⟨mi2, oi2, ms2, os2, N2, D2, rest2, E, hInt2, hSign2, hN2, hD2, _⟩
    have E' : (str "integer_part: \"" ++ I ++ '"' :: ' ' :: []) ++
        ((str "negative: \"" ++ G ++ '"' :: ' ' :: []) ++
          (str "denominator: \"" ++ (D ++ '"' :: (' ' :: '\x7d' :: [])))) =
        mi2 ++ (ms2 ++ (str "numerator: \"" ++
          (N2 ++ '"' :: ' ' :: (str "denominator: \"" ++ (D2 ++ '"' :: rest2))))) := by
      simpa [List.append_assoc] using E
    exact no_num_core (IntSeq.plain hI IntSeq.nil) (SignSeq.cons hG SignSeq.nil)
      hInt2 hSign2 E' hD hN2
  · refine fraction_reject (by decide) ?_
    intro q hq
    rcases mem_graph.1 hq with ⟨mi2, oi2, ms2, os2, N2, D2, rest2, E, hInt2, hSign2, hN2, hD2, _⟩
    have E' : ([] : List Char) ++ (([] : List Char) ++
        (str "numerator: \"" ++ (N ++ '"' :: ' ' :: '\x7d' :: []))) =
        mi2 ++ (ms2 ++ (str "numerator: \"" ++
          (N2 ++ '"' :: ' ' :: (str "denominator: \"" ++ (D2 ++ '"' :: rest2))))) := by
      simpa using E
    exact no_den_core IntSeq.nil SignSeq.nil hInt2 hSign2 E' hN hN2
  · refine fraction_reject (by decide) ?_
    intro q hq
    rcases mem_graph.1 hq with ⟨mi2, oi2, ms2, os2, N2, D2, rest2, E, hInt2, hSign2, hN2, hD2, _⟩
    have E' : (str "integer_part: \"" ++ I ++ '"' :: ' ' :: []) ++ (([] : List Char) ++
        (str "numerator: \"" ++ (N ++ '"' :: ' ' :: '\x7d' :: []))) =
        mi2 ++ (ms2 ++ (str "numerator: \"" ++
          (N2 ++ '"' :: ' ' :: (str "denominator: \"" ++ (D2 ++ '"' :: rest2))))) := by
      simpa [List.append_assoc] using E
    exact no_den_core (IntSeq.plain hI IntSeq.nil) SignSeq.nil hInt2 hSign2 E' hN hN2
  · refine fraction_reject (by decide) ?_
    intro q hq
    rcases mem_graph.1 hq with ⟨mi2, oi2, ms2, os2, N2, D2, rest2, E, hInt2, hSign2, hN2, hD2, _⟩
    have E' : ([] : List Char) ++ ((str "negative: \"" ++ G ++ '"' :: ' ' :: []) ++
        (str "numerator: \"" ++ (N ++ '"' :: ' ' :: '\x7d' :: []))) =
        mi2 ++ (ms2 ++ (str "numerator: \"" ++
          (N2 ++ '"' :: ' ' :: (str "denominator: \"" ++ (D2 ++ '"' :: rest2))))) := by
      simpa [List.append_assoc] using E
    exact no_den_core IntSeq.nil (SignSeq.cons hG SignSeq.nil) hInt2 hSign2 E' hN hN2
  · refine fraction_reject (by decide) ?_
    intro q hq
    rcases mem_graph.1 hq with ⟨mi2, oi2, ms2, os2, N2, D2, rest2, E, hInt2, hSign2, hN2, hD2, _⟩
    have E' : (str "integer_part: \"" ++ I ++ '"' :: ' ' :: []) ++
        ((str "negative: \"" ++ G ++ '"' :: ' ' :: []) ++
          (str "numerator: \"" ++ (N ++ '"' :: ' ' :: '\x7d' :: []))) =
        mi2 ++ (ms2 ++ (str "numerator: \"" ++
          (N2 ++ '"' :: ' ' :: (str "denominator: \"" ++ (D2 ++ '"' :: rest2))))) := by
      simpa [List.append_assoc] using E
    exact no_den_core (IntSeq.plain hI IntSeq.nil) (SignSeq.cons hG SignSeq.nil)
      hInt2 hSign2 E' hN hN2

/-- Witness for claim C8 at concrete field values. -/
theorem ja_fraction_missing_field_rejected_witness :
    completeResults JaFraction.fractionFst
        (str "fraction \x7b denominator: \"" ++ (str "4" ++ str "\" \x7d")) = [] ∧
    completeResults JaFraction.fractionFst
        (str "fraction \x7b numerator: \"" ++ (str "3" ++ str "\" \x7d")) = [] := by
  have h := ja_fraction_missing_field_rejected (str "1") (str "-") (str "3") (str "4")
    (by decide) (by decide) (by decide) (by decide)
  exact ⟨h.1, h.2.2.2.2.1⟩

/-! ## Characterization of the electronic verbalizer components -/

theorem mem_spaced_unit {cs : List Char} {q : TRes} :
    q ∈ tseq (charCls DeElectronic.notQuoteSpace) (pinsert (str " ")) cs ↔
      ∃ c r, cs = c :: r ∧ DeElectronic.notQuoteSpace c = true ∧ q = ([c, ' '], 0, r) := by
  constructor
  · intro h
    rw [mem_tseq] at h
    rcases h with ⟨p1, hp1, p2, hp2, hqe⟩
    rcases mem_charCls.1 hp1 with ⟨c, r, rfl, hc, rfl⟩
    rw [pinsert, mem_cross] at hp2
    rcases hp2 with ⟨_, rfl⟩
    refine ⟨c, r, rfl, hc, ?_⟩
    rw [hqe]
    simp [str]
  · rintro ⟨c, r, rfl, hc, rfl⟩
    rw [mem_tseq]
    refine ⟨([c], 0, r), ?_, (str " ", 0, r), ?_, by simp [str]⟩
    · exact mem_charCls.2 ⟨c, r, rfl, hc, rfl⟩
    · rw [pinsert, mem_cross]
      exact ⟨List.nil_prefix, by simp⟩

theorem flatMap_space_append (a : List Char) (c : Char) :
    (a.flatMap (fun x => [x, ' '])) ++ [c] = List.intersperse ' ' (a ++ [c]) := by
  induction a with
  | nil => rfl
  | cons x a ih =>
    cases a with
    | nil => rfl
    | cons y a' =>
      have hL : ((x :: y :: a').flatMap (fun x => [x, ' '])) ++ [c] =
          x :: ' ' :: (((y :: a').flatMap (fun x => [x, ' '])) ++ [c]) := by
        simp
      rw [hL, ih]
      rfl

theorem starRel_spaced {cs : List Char} {q : TRes} :
    StarRel (tseq (charCls DeElectronic.notQuoteSpace) (pinsert (str " "))) cs q ↔
      ∃ a r, cs = a ++ r ∧ (∀ c ∈ a, DeElectronic.notQuoteSpace c = true) ∧
        q = (a.flatMap (fun x => [x, ' ']), 0, r) := by
  constructor
  · intro h
    induction h with
    | done cs => exact ⟨[], cs, rfl, by simp, by simp⟩
    | step hmem hlen hst ih =>
      rename_i cs o w r o2 w2 r2
      rcases ih with ⟨a, rr, hsplit, hall, heq⟩
      simp only [Prod.mk.injEq] at heq
      obtain ⟨rfl, rfl, rfl⟩ := heq
      rcases mem_spaced_unit.1 hmem with ⟨c, r', hcs, hc, heq2⟩
      simp only [Prod.mk.injEq] at heq2
      obtain ⟨rfl, rfl, rfl⟩ := heq2
      refine ⟨c :: a, r2, ?_, ?_, ?_⟩
      · simp [hcs, hsplit]
      · intro x hx
        rcases List.mem_cons.1 hx with rfl | hx
        · exact hc
        · exact hall x hx
      · simp
  · rintro ⟨a, r, rfl, hall, rfl⟩
    induction a with
    | nil =>
      have h := @StarRel.done (tseq (charCls DeElectronic.notQuoteSpace) (pinsert (str " "))) r
      simpa using h
    | cons c a ih =>
      have hmem : ([c, ' '], 0, a ++ r) ∈
          tseq (charCls DeElectronic.notQuoteSpace) (pinsert (str " ")) (c :: a ++ r) :=
        mem_spaced_unit.2 ⟨c, a ++ r, by simp, hall c (by simp), rfl⟩
      have hrec := ih (fun x hx => hall x (List.mem_cons_of_mem c hx))
      have := StarRel.step hmem (by simp) hrec
      simpa using this

theorem mem_add_space {cs : List Char} {q : TRes} :
    q ∈ DeElectronic.add_space_after_char cs ↔
      ∃ U r, cs = U ++ r ∧ U ≠ [] ∧ (∀ c ∈ U, DeElectronic.notQuoteSpace c = true) ∧
        q = (List.intersperse ' ' U, 0, r) := by
  constructor
  · intro h
    rw [DeElectronic.add_space_after_char, mem_tseq] at h
    rcases h with ⟨p1, hp1, p2, hp2, hqe⟩
    rw [mem_star, starRel_spaced] at hp1
    rcases hp1 with ⟨a, rr, rfl, hall, rfl⟩
    rcases mem_charCls.1 hp2 with ⟨c, r, hrr, hc, rfl⟩
    have hrr' : rr = c :: r := hrr
    refine ⟨a ++ [c], r, ?_, by simp, ?_, ?_⟩
    · rw [hrr']
      simp
    · intro x hx
      rcases List.mem_append.1 hx with hx | hx
      · exact hall x hx
      · rw [List.mem_singleton.1 hx]
        exact hc
    · rw [hqe, ← flatMap_space_append]
      simp
  · rintro ⟨U, r, rfl, hU, hall, rfl⟩
    rcases List.eq_nil_or_concat U with rfl | ⟨a, c, rfl⟩
    · exact absurd rfl hU
    · rw [List.concat_eq_append] at hall ⊢
      rw [DeElectronic.add_space_after_char, mem_tseq]
      refine ⟨(a.flatMap (fun x => [x, ' ']), 0, c :: r), ?_, ([c], 0, r), ?_, ?_⟩
      · rw [mem_star, starRel_spaced]
        exact ⟨a, c :: r, by simp, fun x hx => hall x (by simp [hx]), rfl⟩
      · exact mem_charCls.2 ⟨c, r, rfl, hall c (by simp), rfl⟩
      · rw [← flatMap_space_append]
        simp

theorem mem_user_name {cs : List Char} {q : TRes} :
    q ∈ DeElectronic.user_name cs ↔
      ∃ U r, cs = str "username: \"" ++ (U ++ '"' :: r) ∧ U ≠ [] ∧
        (∀ c ∈ U, DeElectronic.notQuoteSpace c = true) ∧
        q = (DeElectronic.verbalize_characters (List.intersperse ' ' U), 0, r) := by
  constructor
  · intro h
    rw [DeElectronic.user_name, mem_mapOutput] at h
    rcases h with ⟨p, hp, rfl⟩
    rw [mem_tseq] at hp
    rcases hp with ⟨p1, hp1, p2, hp2, hpe⟩
    rw [pdelete, mem_cross] at hp1
    rcases hp1 with ⟨⟨tail, rfl⟩, rfl⟩
    simp only [List.drop_left] at hp2 hpe
    rw [mem_tseq] at hp2
    rcases hp2 with ⟨p3, hp3, p4, hp4, hp2e⟩
    rcases mem_add_space.1 hp3 with ⟨U, r1, rfl, hU, hall, rfl⟩
    rw [pdelete, mem_cross] at hp4
    rcases hp4 with ⟨⟨r2, rfl⟩, rfl⟩
    have hqt : str "\"" ++ r2 = '"' :: r2 := rfl
    refine ⟨U, r2, by rw [hqt], hU, hall, ?_⟩
    rw [hpe, hp2e]
    simp [List.drop_left]
  · rintro ⟨U, r, rfl, hU, hall, rfl⟩
    rw [DeElectronic.user_name, mem_mapOutput]
    refine ⟨(List.intersperse ' ' U, 0, r), ?_, by simp⟩
    rw [mem_tseq]
    refine ⟨([], 0, U ++ '"' :: r), ?_, (List.intersperse ' ' U, 0, r), ?_, by simp⟩
    · rw [pdelete]
      exact mem_cross_append.2 rfl
    · rw [mem_tseq]
      refine ⟨(List.intersperse ' ' U, 0, '"' :: r), ?_, ([], 0, r), ?_, by simp⟩
      · exact mem_add_space.2 ⟨U, '"' :: r, rfl, hU, hall, rfl⟩
      · rw [pdelete]
        have hqt : str "\"" ++ r = '"' :: r := rfl
        rw [← hqt]
        exact mem_cross_append.2 rfl

theorem mem_protocol {cs : List Char} {q : TRes} :
    q ∈ DeElectronic.protocol cs ↔
      ∃ P r, cs = str "protocol: \"" ++ (P ++ '"' :: r) ∧ P ≠ [] ∧
        (∀ c ∈ P, DeElectronic.notQuoteSpace c = true) ∧
        q = (DeElectronic.charRewrite DeElectronic.graph_symbols_map (List.intersperse ' ' P), 0, r) := by
  constructor
  · intro h
    rw [DeElectronic.protocol, mem_tseq] at h
    rcases h with ⟨p1, hp1, p2, hp2, hqe⟩
    rw [pdelete, mem_cross] at hp1
    rcases hp1 with ⟨⟨tail, rfl⟩, rfl⟩
    simp only [List.drop_left] at hp2 hqe
    rw [mem_tseq] at hp2
    rcases hp2 with ⟨p3, hp3, p4, hp4, hp2e⟩
    rw [mem_mapOutput] at hp3
    rcases hp3 with ⟨p5, hp5, rfl⟩
    rcases mem_add_space.1 hp5 with ⟨P, r1, rfl, hP, hall, rfl⟩
    rw [pdelete, mem_cross] at hp4
    rcases hp4 with ⟨⟨r2, rfl⟩, rfl⟩
    have hqt : str "\"" ++ r2 = '"' :: r2 := rfl
    refine ⟨P, r2, by rw [hqt], hP, hall, ?_⟩
    rw [hqe, hp2e]
    simp [List.drop_left]
  · rintro ⟨P, r, rfl, hP, hall, rfl⟩
    rw [DeElectronic.protocol, mem_tseq]
    refine ⟨([], 0, P ++ '"' :: r), ?_,
      (DeElectronic.charRewrite DeElectronic.graph_symbols_map (List.intersperse ' ' P), 0, r),
      ?_, by simp⟩
    · rw [pdelete]
      exact mem_cross_append.2 rfl
    · rw [mem_tseq]
      refine ⟨(DeElectronic.charRewrite DeElectronic.graph_symbols_map (List.intersperse ' ' P), 0,
          '"' :: r), ?_, ([], 0, r), ?_, by simp⟩
      · rw [mem_mapOutput]
        exact ⟨(List.intersperse ' ' P, 0, '"' :: r),
          mem_add_space.2 ⟨P, '"' :: r, rfl, hP, hall, rfl⟩, by simp⟩
      · rw [pdelete]
        have hqt : str "\"" ++ r = '"' :: r := rfl
        rw [← hqt]
        exact mem_cross_append.2 rfl

theorem mem_convert_defaults {cs : List Char} {q : TRes} :
    q ∈ DeElectronic.convert_defaults cs ↔
      ∃ m o w rest, cs = m ++ rest ∧ ConvUnit m o w ∧ q = (o, w, rest) := by
  rw [DeElectronic.convert_defaults, mem_tunion, mem_tunion]
  constructor
  · rintro ((h | h) | h)
    · rcases mem_addWeight.1 h with ⟨p, hp, rfl⟩
      rcases mem_charCls.1 hp with ⟨c, r, rfl, hc, rfl⟩
      refine ⟨[c], [c], 1, r, rfl, ConvUnit.chr (by simpa using hc), by simp⟩
    · rw [DeElectronic.server_common, accep, mem_cross] at h
      rcases h with ⟨⟨rest, rfl⟩, rfl⟩
      exact ⟨str "hotmail", str "hotmail", 0, rest, rfl, ConvUnit.server, by simp [List.drop_left]⟩
    · rw [DeElectronic.domain_common, accep, mem_cross] at h
      rcases h with ⟨⟨rest, rfl⟩, rfl⟩
      exact ⟨str "com", str "com", 0, rest, rfl, ConvUnit.dom, by simp [List.drop_left]⟩
  · rintro ⟨m, o, w, rest, rfl, hu, rfl⟩
    cases hu with
    | chr hc =>
      rename_i c
      refine Or.inl (Or.inl (mem_addWeight.2 ⟨([c], 0, rest), ?_, by simp⟩))
      exact mem_charCls.2 ⟨c, rest, rfl, by simpa using hc, rfl⟩
    | server =>
      refine Or.inl (Or.inr ?_)
      rw [DeElectronic.server_common, accep]
      exact mem_cross_append.2 rfl
    | dom =>
      refine Or.inr ?_
      rw [DeElectronic.domain_common, accep]
      exact mem_cross_append.2 rfl

theorem convUnit_ne_nil {m o : List Char} {w : Int} (h : ConvUnit m o w) : m ≠ [] := by
  cases h with
  | chr hc => simp
  | server => decide
  | dom => decide

theorem convUnit_no_quote {m o : List Char} {w : Int} (h : ConvUnit m o w) :
    ∀ c ∈ m, c ≠ '"' := by
  cases h with
  | chr hc => simpa using hc
  | server => decide
  | dom => decide

theorem starRel_space_conv {cs : List Char} {q : TRes} :
    StarRel (tseq (pinsert (str " ")) DeElectronic.convert_defaults) cs q ↔
      (q = ([], 0, cs) ∨
        ∃ m o w rest, cs = m ++ rest ∧ DomainSeq m o w ∧ q = (' ' :: o, w, rest)) := by
  constructor
  · intro h
    induction h with
    | done cs => exact Or.inl rfl
    | step hmem hlen hst ih =>
      rename_i cs o w r o2 w2 r2
      rw [mem_tseq] at hmem
      rcases hmem with ⟨p1, hp1, p2, hp2, hpe⟩
      rw [pinsert, mem_cross] at hp1
      rcases hp1 with ⟨_, rfl⟩
      rcases mem_convert_defaults.1 hp2 with ⟨m, o', w', rest, hsplit, hu, rfl⟩
      simp only [Prod.mk.injEq] at hpe
      obtain ⟨rfl, rfl, rfl⟩ := hpe
      rcases ih with he | ⟨m2, o3, w3, rest2, hsplit2, hseq2, heq2⟩
      · simp only [Prod.mk.injEq] at he
        obtain ⟨rfl, rfl, rfl⟩ := he
        right
        refine ⟨m, o', w', r2, by simpa using hsplit, DomainSeq.single hu, ?_⟩
        have hsp : str " " ++ o' = ' ' :: o' := rfl
        simp [hsp]
      · simp only [Prod.mk.injEq] at heq2
        obtain ⟨rfl, rfl, rfl⟩ := heq2
        right
        refine ⟨m ++ m2, o' ++ ' ' :: o3, w' + w2, r2, ?_, DomainSeq.cons hu hseq2, ?_⟩
        · rw [hsplit2] at hsplit
          simpa [List.append_assoc] using hsplit
        · have hsp : str " " ++ o' = ' ' :: o' := rfl
          simp [hsp]
  · rintro (rfl | ⟨m, o, w, rest, rfl, hseq, rfl⟩)
    · exact StarRel.done cs
    · induction hseq with
      | single hu =>
        rename_i m' o' w'
        have hmem : (' ' :: o', w', rest) ∈
            tseq (pinsert (str " ")) DeElectronic.convert_defaults (m' ++ rest) := by
          rw [mem_tseq]
          refine ⟨(str " ", 0, m' ++ rest), ?_, (o', w', rest), ?_, ?_⟩
          · rw [pinsert, mem_cross]
            exact ⟨List.nil_prefix, by simp⟩
          · exact mem_convert_defaults.2 ⟨m', o', w', rest, rfl, hu, rfl⟩
          · have hsp : str " " ++ o' = ' ' :: o' := rfl
            simp [hsp]
        have hlen : rest.length < (m' ++ rest).length := by
          have := convUnit_ne_nil hu
          cases m' with
          | nil => exact absurd rfl this
          | cons x xs =>
            simp only [List.length_append, List.length_cons]
            omega
        have := StarRel.step hmem hlen (StarRel.done rest)
        simpa using this
      | cons hu hseq2 ih =>
        rename_i m1 o1 w1 m2 o2 w2
        have hmem : (' ' :: o1, w1, m2 ++ rest) ∈
            tseq (pinsert (str " ")) DeElectronic.convert_defaults ((m1 ++ m2) ++ rest) := by
          rw [mem_tseq]
          refine ⟨(str " ", 0, (m1 ++ m2) ++ rest), ?_, (o1, w1, m2 ++ rest), ?_, ?_⟩
          · rw [pinsert, mem_cross]
            exact ⟨List.nil_prefix, by simp⟩
          · exact mem_convert_defaults.2 ⟨m1, o1, w1, m2 ++ rest, by simp, hu, rfl⟩
          · have hsp : str " " ++ o1 = ' ' :: o1 := rfl
            simp [hsp]
        have hlen : (m2 ++ rest).length < ((m1 ++ m2) ++ rest).length := by
          have := convUnit_ne_nil hu
          cases m1 with
          | nil => exact absurd rfl this
          | cons x xs =>
            simp only [List.length_append, List.cons_append, List.length_cons]
            omega
        have := StarRel.step hmem hlen ih
        simpa using this

theorem mem_domain_inner {cs : List Char} {q : TRes} :
    q ∈ DeElectronic.domain_inner cs ↔
      ∃ m o w rest, cs = m ++ rest ∧ DomainSeq m o w ∧
        q = (DeElectronic.verbalize_characters o, w, rest) := by
  constructor
  · intro h
    rw [DeElectronic.domain_inner, mem_mapOutput] at h
    rcases h with ⟨p, hp, rfl⟩
    rw [mem_tseq] at hp
    rcases hp with ⟨p1, hp1, p2, hp2, hpe⟩
    rcases mem_convert_defaults.1 hp1 with ⟨m, o, w, rest, rfl, hu, rfl⟩
    rw [mem_star, starRel_space_conv] at hp2
    rcases hp2 with he | ⟨m2, o2, w2, rest2, hsplit2, hseq2, rfl⟩
    · obtain rfl := he
      refine ⟨m, o, w, rest, rfl, DomainSeq.single hu, ?_⟩
      rw [hpe]
      simp
    · have hsplit2' : rest = m2 ++ rest2 := hsplit2
      refine ⟨m ++ m2, o ++ ' ' :: o2, w + w2, rest2, ?_, DomainSeq.cons hu hseq2, ?_⟩
      · rw [hsplit2']
        simp [List.append_assoc]
      · rw [hpe]
  · rintro ⟨m, o, w, rest, rfl, hseq, rfl⟩
    rw [DeElectronic.domain_inner, mem_mapOutput]
    cases hseq with
    | single hu =>
      refine ⟨(o, w, rest), ?_, by simp⟩
      rw [mem_tseq]
      refine ⟨(o, w, rest), ?_, ([], 0, rest), ?_, by simp⟩
      · exact mem_convert_defaults.2 ⟨m, o, w, rest, rfl, hu, rfl⟩
      · rw [mem_star, starRel_space_conv]
        exact Or.inl rfl
    | cons hu hseq2 =>
      rename_i m1 o1 w1 m2 o2 w2
      refine ⟨(o1 ++ ' ' :: o2, w1 + w2, rest), ?_, by simp⟩
      rw [mem_tseq]
      refine ⟨(o1, w1, m2 ++ rest), ?_, (' ' :: o2, w2, rest), ?_, by simp⟩
      · exact mem_convert_defaults.2 ⟨m1, o1, w1, m2 ++ rest, by simp, hu, rfl⟩
      · rw [mem_star, starRel_space_conv]
        exact Or.inr ⟨m2, o2, w2, rest, rfl, hseq2, rfl⟩

theorem domainSeq_ne_nil {m o : List Char} {w : Int} (h : DomainSeq m o w) : m ≠ [] := by
  cases h with
  | single hu => exact convUnit_ne_nil hu
  | cons hu hseq =>
    rename_i m1 o1 w1 m2 o2 w2
    have := convUnit_ne_nil hu
    cases m1 with
    | nil => exact absurd rfl this
    | cons x xs => simp

theorem domainSeq_no_quote {m o : List Char} {w : Int} (h : DomainSeq m o w) :
    ∀ c ∈ m, c ≠ '"' := by
  induction h with
  | single hu => exact convUnit_no_quote hu
  | cons hu hseq ih =>
    intro c hc
    rcases List.mem_append.1 hc with hc | hc
    · exact convUnit_no_quote hu c hc
    · exact ih c hc

theorem domainSeq_chars :
    ∀ {D : List Char}, D ≠ [] → (∀ c ∈ D, c ≠ '"') →
      DomainSeq D (List.intersperse ' ' D) (D.length : Int) := by
  intro D
  induction D with
  | nil => intro h _; exact absurd rfl h
  | cons d D' ih =>
    intro _ hq
    cases D' with
    | nil =>
      have h := DomainSeq.single (ConvUnit.chr (hq d (by simp)))
      exact h
    | cons d' D'' =>
      have htail := ih (by simp) (fun c hc => hq c (by simp [hc]))
      have h := DomainSeq.cons (ConvUnit.chr (hq d (by simp))) htail
      have hw : (1 : Int) + ((d' :: D'').length : Int) = ((d :: d' :: D'').length : Int) := by
        simp
        omega
      rw [hw] at h
      exact h

theorem mem_domain_field {cs : List Char} {q : TRes} :
    q ∈ DeElectronic.domain cs ↔
      ∃ m o w r, cs = str "domain: \"" ++ (m ++ '"' :: r) ∧ DomainSeq m o w ∧
        q = (DeElectronic.verbalize_characters o, w, r) := by
  constructor
  · intro h
    rw [DeElectronic.domain, mem_tseq] at h
    rcases h with ⟨p1, hp1, p2, hp2, hqe⟩
    rw [pdelete, mem_cross] at hp1
    rcases hp1 with ⟨⟨tail, rfl⟩, rfl⟩
    simp only [List.drop_left] at hp2 hqe
    rw [mem_tseq] at hp2
    rcases hp2 with ⟨p3, hp3, p4, hp4, hp2e⟩
    rcases mem_domain_inner.1 hp3 with ⟨m, o, w, rest, rfl, hseq, rfl⟩
    rw [pdelete, mem_cross] at hp4
    rcases hp4 with ⟨⟨r2, rfl⟩, rfl⟩
    have hqt : str "\"" ++ r2 = '"' :: r2 := rfl
    refine ⟨m, o, w, r2, by rw [hqt], hseq, ?_⟩
    rw [hqe, hp2e]
    simp [List.drop_left]
  · rintro ⟨m, o, w, r, rfl, hseq, rfl⟩
    rw [DeElectronic.domain, mem_tseq]
    refine ⟨([], 0, m ++ '"' :: r), ?_, (DeElectronic.verbalize_characters o, w, r), ?_, by simp⟩
    · rw [pdelete]
      exact mem_cross_append.2 rfl
    · rw [mem_tseq]
      refine ⟨(DeElectronic.verbalize_characters o, w, '"' :: r), ?_, ([], 0, r), ?_, by simp⟩
      · exact mem_domain_inner.2 ⟨m, o, w, '"' :: r, rfl, hseq, rfl⟩
      · rw [pdelete]
        have hqt : str "\"" ++ r = '"' :: r := rfl
        rw [← hqt]
        exact mem_cross_append.2 rfl

theorem elec_starts {cs : List Char} {q : TRes} (h : q ∈ DeElectronic.graph cs) :
    (∃ Z, cs = str "protocol: \"" ++ Z) ∨ (∃ Z, cs = str "domain: \"" ++ Z) ∨
      ∃ Z, cs = str "username: \"" ++ Z := by
  rw [DeElectronic.graph, mem_tunion, mem_tunion] at h
  rcases h with h | h | h
  · rw [mem_tseq] at h
    rcases h with ⟨p1, hp1, p2, hp2, _⟩
    rw [mem_opt] at hp1
    rcases hp1 with rfl | hp1
    · rw [DeElectronic.domain, mem_tseq] at hp2
      rcases hp2 with ⟨p3, hp3, _⟩
      rw [pdelete, mem_cross] at hp3
      rcases hp3.1 with ⟨Z, hZ⟩
      exact Or.inr (Or.inl ⟨Z, hZ.symm⟩)
    · rw [mem_tseq] at hp1
      rcases hp1 with ⟨p3, hp3, _⟩
      rcases mem_protocol.1 hp3 with ⟨P, r, hcs, _⟩
      exact Or.inl ⟨P ++ '"' :: r, hcs⟩
  · rw [mem_tseq] at h
    rcases h with ⟨p1, hp1, _⟩
    rcases mem_user_name.1 hp1 with ⟨U, r, hcs, _⟩
    exact Or.inr (Or.inr ⟨U ++ '"' :: r, hcs⟩)
  · rw [mem_tseq] at h
    rcases h with ⟨p1, hp1, p2, hp2, _⟩
    rw [pinsert, mem_cross] at hp1
    rcases hp1 with ⟨_, rfl⟩
    rcases mem_user_name.1 hp2 with ⟨U, r, hcs, _⟩
    exact Or.inr (Or.inr ⟨U ++ '"' :: r, hcs⟩)

theorem elec_space_head {B : List Char} {q : TRes} :
    q ∉ tseq DeElectronic.graph DeElectronic.delete_preserve_order (' ' :: B) := by
  intro h
  rw [mem_tseq] at h
  rcases h with ⟨p1, hp1, _⟩
  have hsp : (' ' :: B : List Char) = str " " ++ B := rfl
  rcases elec_starts hp1 with ⟨Z, hZ⟩ | ⟨Z, hZ⟩ | ⟨Z, hZ⟩
  · rw [hsp] at hZ
    exact concrete_append_ne (by decide) (by decide) hZ
  · rw [hsp] at hZ
    exact concrete_append_ne (by decide) (by decide) hZ
  · rw [hsp] at hZ
    exact concrete_append_ne (by decide) (by decide) hZ

theorem electronic_reject {b : Char} {B' : List Char}
    (hb : isWhite b = false)
    (hB : ∀ q : TRes, q ∉ DeElectronic.graph (b :: B')) :
    completeResults DeElectronic.electronicFst (str "electronic \x7b " ++ (b :: B')) = [] := by
  apply List.eq_nil_iff_forall_not_mem.2
  intro p hp
  obtain ⟨o, w⟩ := p
  rw [mem_completeResults] at hp
  rw [DeElectronic.electronicFst, mem_mapOutput] at hp
  rcases hp with ⟨p2, hp2, _⟩
  rcases delete_tokens_inv hp2 with
    ⟨sp1, sp2, mid, o', w', r, hcs, hsp1, hsp2, hmem, _sp3, _rest, _hr, _hsp3, _hq⟩
  have hfr : str "electronic \x7b " ++ (b :: B') =
      str "electronic" ++ (' ' :: '\x7b' :: ' ' :: b :: B') := rfl
  rw [hfr] at hcs
  have hc2 : sp1 ++ ('\x7b' :: (sp2 ++ mid)) = ' ' :: '\x7b' :: ' ' :: b :: B' :=
    (List.append_cancel_left hcs).symm
  rcases space_split_single hc2 hsp1 (by decide) with hA | hB2
  · injection hA with h1 _
    exact absurd h1 (by decide)
  · injection hB2 with _ hB3
    rcases space_split_single hB3 hsp2 hb with hC | hD2
    · rw [hC] at hmem
      exact elec_space_head hmem
    · rw [hD2] at hmem
      rw [mem_tseq] at hmem
      rcases hmem with ⟨p3, hp3, _⟩
      exact hB _ hp3

/-! ## Claim C10 -/

theorem notQuoteSpace_no_quote {U : List Char}
    (h : ∀ c ∈ U, DeElectronic.notQuoteSpace c = true) : ∀ c ∈ U, c ≠ '"' := by
  intro c hc
  have := h c hc
  simp [DeElectronic.notQuoteSpace] at this
  exact this.1

theorem notQuoteSpace_no_space {U : List Char}
    (h : ∀ c ∈ U, DeElectronic.notQuoteSpace c = true) : ∀ c ∈ U, c ≠ ' ' := by
  intro c hc
  have := h c hc
  simp [DeElectronic.notQuoteSpace] at this
  exact this.2

/-- Claim C10: the electronic verbalizer rejects any tagged token whose
`username` value (or `protocol` value) is empty or contains a space: the
character-spelling component requires at least one character and excludes
spaces. -/
theorem de_electronic_bad_value_rejected :
    ∀ U P D : List Char,
      (∀ c ∈ U, c ≠ '"') → (U = [] ∨ ' ' ∈ U) →
      (∀ c ∈ P, c ≠ '"') → (P = [] ∨ ' ' ∈ P) →
      (completeResults DeElectronic.electronicFst
          (str "electronic \x7b username: \"" ++
            (U ++ (str "\" domain: \"" ++ (D ++ str "\" \x7d")))) = [] ∧
        completeResults DeElectronic.electronicFst
          (str "electronic \x7b protocol: \"" ++
            (P ++ (str "\" domain: \"" ++ (D ++ str "\" \x7d")))) = []) := by
  intro U P D hUq hUbad hPq hPbad
  constructor
  · refine electronic_reject (by decide) ?_
    intro q hq
    rw [DeElectronic.graph, mem_tunion, mem_tunion] at hq
    rcases hq with h | h | h
    · rw [mem_tseq] at h
      rcases h with ⟨p1, hp1, p2, hp2, _⟩
      rw [mem_opt] at hp1
      rcases hp1 with rfl | hp1
      · rw [DeElectronic.domain, mem_tseq] at hp2
        rcases hp2 with ⟨p3, hp3, _⟩
        rw [pdelete, mem_cross] at hp3
        rcases hp3.1 with ⟨Z, hZ⟩
        have hZ' : str "domain: \"" ++ Z =
            str "username: \"" ++
              (U ++ ('"' :: (' ' :: (str "domain: \"" ++ (D ++ '"' :: ' ' :: '\x7d' :: []))))) := hZ
        exact concrete_append_ne (by decide) (by decide) hZ'
      · rw [mem_tseq] at hp1
        rcases hp1 with ⟨p3, hp3, _⟩
        rcases mem_protocol.1 hp3 with ⟨P', r, hcs, _⟩
        have hcs' : str "username: \"" ++
            (U ++ ('"' :: (' ' :: (str "domain: \"" ++ (D ++ '"' :: ' ' :: '\x7d' :: []))))) =
            str "protocol: \"" ++ (P' ++ '"' :: r) := hcs
        exact concrete_append_ne (by decide) (by decide) hcs'
    · rw [mem_tseq] at h
      rcases h with ⟨p1, hp1, _⟩
      rcases mem_user_name.1 hp1 with ⟨U', r, hcs, hU'ne, hU'good, _⟩
      have hcs' : str "username: \"" ++
          (U ++ ('"' :: (' ' :: (str "domain: \"" ++ (D ++ '"' :: ' ' :: '\x7d' :: []))))) =
          str "username: \"" ++ (U' ++ '"' :: r) := hcs
      have hc := List.append_cancel_left hcs'
      obtain ⟨rfl, _⟩ := append_sep_inj hUq (notQuoteSpace_no_quote hU'good) hc
      rcases hUbad with rfl | hsp
      · exact hU'ne rfl
      · exact notQuoteSpace_no_space hU'good ' ' hsp rfl
    · rw [mem_tseq] at h
      rcases h with ⟨p1, hp1, p2, hp2, _⟩
      rw [pinsert, mem_cross] at hp1
      rcases hp1 with ⟨_, rfl⟩
      rcases mem_user_name.1 hp2 with ⟨U', r, hcs, hU'ne, hU'good, _⟩
      have hcs' : str "username: \"" ++
          (U ++ ('"' :: (' ' :: (str "domain: \"" ++ (D ++ '"' :: ' ' :: '\x7d' :: []))))) =
          str "username: \"" ++ (U' ++ '"' :: r) := hcs
      have hc := List.append_cancel_left hcs'
      obtain ⟨rfl, _⟩ := append_sep_inj hUq (notQuoteSpace_no_quote hU'good) hc
      rcases hUbad with rfl | hsp
      · exact hU'ne rfl
      · exact notQuoteSpace_no_space hU'good ' ' hsp rfl
  · refine electronic_reject (by decide) ?_
    intro q hq
    rw [DeElectronic.graph, mem_tunion, mem_tunion] at hq
    rcases hq with h | h | h
    · rw [mem_tseq] at h
      rcases h with ⟨p1, hp1, p2, hp2, _⟩
      rw [mem_opt] at hp1
      rcases hp1 with rfl | hp1
      · rw [DeElectronic.domain, mem_tseq] at hp2
        rcases hp2 with ⟨p3, hp3, _⟩
        rw [pdelete, mem_cross] at hp3
        rcases hp3.1 with ⟨Z, hZ⟩
        have hZ' : str "domain: \"" ++ Z =
            str "protocol: \"" ++
              (P ++ ('"' :: (' ' :: (str "domain: \"" ++ (D ++ '"' :: ' ' :: '\x7d' :: []))))) := hZ
        exact concrete_append_ne (by decide) (by decide) hZ'
      · rw [mem_tseq] at hp1
        rcases hp1 with ⟨p3, hp3, _⟩
        rcases mem_protocol.1 hp3 with ⟨P', r, hcs, hP'ne, hP'good, _⟩
        have hcs' : str "protocol: \"" ++
            (P ++ ('"' :: (' ' :: (str "domain: \"" ++ (D ++ '"' :: ' ' :: '\x7d' :: []))))) =
            str "protocol: \"" ++ (P' ++ '"' :: r) := hcs
        have hc := List.append_cancel_left hcs'
        obtain ⟨rfl, _⟩ := append_sep_inj hPq (notQuoteSpace_no_quote hP'good) hc
        rcases hPbad with rfl | hsp
        · exact hP'ne rfl
        · exact notQuoteSpace_no_space hP'good ' ' hsp rfl
    · rw [mem_tseq] at h
      rcases h with ⟨p1, hp1, _⟩
      rcases mem_user_name.1 hp1 with ⟨U', r, hcs, _⟩
      have hcs' : str "protocol: \"" ++
          (P ++ ('"' :: (' ' :: (str "domain: \"" ++ (D ++ '"' :: ' ' :: '\x7d' :: []))))) =
          str "username: \"" ++ (U' ++ '"' :: r) := hcs
      exact concrete_append_ne (by decide) (by decide) hcs'
    · rw [mem_tseq] at h
      rcases h with ⟨p1, hp1, p2, hp2, _⟩
      rw [pinsert, mem_cross] at hp1
      rcases hp1 with ⟨_, rfl⟩
      rcases mem_user_name.1 hp2 with ⟨U', r, hcs, _⟩
      have hcs' : str "protocol: \"" ++
          (P ++ ('"' :: (' ' :: (str "domain: \"" ++ (D ++ '"' :: ' ' :: '\x7d' :: []))))) =
          str "username: \"" ++ (U' ++ '"' :: r) := hcs
      exact concrete_append_ne (by decide) (by decide) hcs'

/-- Witness for claim C10: a spaced username and an empty protocol value. -/
theorem de_electronic_bad_value_rejected_witness :
    completeResults DeElectronic.electronicFst
        (str "electronic \x7b username: \"" ++
          (str "a b" ++ (str "\" domain: \"" ++ (str "x" ++ str "\" \x7d")))) = [] ∧
    completeResults DeElectronic.electronicFst
        (str "electronic \x7b protocol: \"" ++
          (([] : List Char) ++ (str "\" domain: \"" ++ (str "x" ++ str "\" \x7d")))) = [] :=
  de_electronic_bad_value_rejected (str "a b") [] (str "x")
    (by decide) (by decide) (by decide) (by decide)

/-! ## Claim C5 -/

/-- Claim C5, counterexample: a tagged electronic token that carries a
protocol together with a username and a domain is rejected outright (no
output at all), so the protocol is not rendered and prefixed for such
tokens: the protocol branch of the grammar composes only with a bare
domain. -/
theorem de_protocol_with_username_rejected :
    completeResults DeElectronic.electronicFst
      (str "electronic \x7b protocol: \"http\" username: \"abc\" domain: \"x.y\" \x7d") = [] := by
  decide

/-- Claim C5 as amended: for a tagged electronic token with a protocol field
and only a domain field, the verbalizer accepts, and every output is the
protocol value rendering (spelled with spaces and symbol-rewritten) prefixed
to a complete rendering of the domain value (followed by the final-period and
non-breaking-space normalizations); a token that additionally carries a
username field is rejected for every username value. -/
theorem de_protocol_prefixed_domain_only :
    ∀ P D : List Char,
      P ≠ [] → (∀ c ∈ P, DeElectronic.notQuoteSpace c = true) →
      D ≠ [] → (∀ c ∈ D, c ≠ '"') →
      (((DeElectronic.preserve_final_period (nbsp_to_space
            (DeElectronic.charRewrite DeElectronic.graph_symbols_map (List.intersperse ' ' P) ++
              ' ' :: DeElectronic.verbalize_characters (List.intersperse ' ' D))),
          (D.length : Int)) ∈
          completeResults DeElectronic.electronicFst
            (str "electronic \x7b protocol: \"" ++
              (P ++ (str "\" domain: \"" ++ (D ++ str "\" \x7d"))))) ∧
        (∀ o w, (o, w) ∈ completeResults DeElectronic.electronicFst
            (str "electronic \x7b protocol: \"" ++
              (P ++ (str "\" domain: \"" ++ (D ++ str "\" \x7d")))) →
          ∃ dOut dW, (dOut, dW) ∈ completeResults DeElectronic.domain_inner D ∧
            o = DeElectronic.preserve_final_period (nbsp_to_space
              (DeElectronic.charRewrite DeElectronic.graph_symbols_map (List.intersperse ' ' P) ++
                ' ' :: dOut)) ∧ w = dW) ∧
        ∀ U : List Char, completeResults DeElectronic.electronicFst
            (str "electronic \x7b protocol: \"" ++
              (P ++ (str "\" username: \"" ++
                (U ++ (str "\" domain: \"" ++ (D ++ str "\" \x7d")))))) = []) := by
  intro P D hPne hPgood hDne hDq
  have hPq : ∀ c ∈ P, c ≠ '"' := notQuoteSpace_no_quote hPgood
  refine ⟨?_, ?_, ?_⟩
  · -- existence of the protocol-prefixed output
    have hdom := domainSeq_chars hDne hDq
    rw [mem_completeResults, DeElectronic.electronicFst, mem_mapOutput]
    refine ⟨(nbsp_to_space
        (DeElectronic.charRewrite DeElectronic.graph_symbols_map (List.intersperse ' ' P) ++
          ' ' :: DeElectronic.verbalize_characters (List.intersperse ' ' D)),
        (D.length : Int), []), ?_, by simp⟩
    have h1 : str "electronic \x7b protocol: \"" ++
        (P ++ (str "\" domain: \"" ++ (D ++ str "\" \x7d"))) =
        str "electronic" ++ ' ' :: '\x7b' :: ' ' ::
          (str "protocol: \"" ++
            (P ++ '"' :: (' ' :: (str "domain: \"" ++ (D ++ '"' :: ' ' :: '\x7d' :: []))))) := by
      simp [str]
    rw [h1]
    apply delete_tokens_intro
    rw [mem_tseq]
    refine ⟨(DeElectronic.charRewrite DeElectronic.graph_symbols_map (List.intersperse ' ' P) ++
        ' ' :: DeElectronic.verbalize_characters (List.intersperse ' ' D),
        (D.length : Int), ' ' :: '\x7d' :: []), ?_, (([] : List Char), 0, ' ' :: '\x7d' :: []), ?_, by simp⟩
    · rw [DeElectronic.graph, mem_tunion]
      refine Or.inl ?_
      rw [mem_tseq]
      refine ⟨(DeElectronic.charRewrite DeElectronic.graph_symbols_map (List.intersperse ' ' P) ++
          str " ", 0, str "domain: \"" ++ (D ++ '"' :: ' ' :: '\x7d' :: [])), ?_,
        (DeElectronic.verbalize_characters (List.intersperse ' ' D), (D.length : Int),
          ' ' :: '\x7d' :: []), ?_, ?_⟩
      · rw [mem_opt]
        refine Or.inr ?_
        rw [mem_tseq]
        refine ⟨(DeElectronic.charRewrite DeElectronic.graph_symbols_map (List.intersperse ' ' P),
            0, ' ' :: (str "domain: \"" ++ (D ++ '"' :: ' ' :: '\x7d' :: []))), ?_,
          (str " ", 0, str "domain: \"" ++ (D ++ '"' :: ' ' :: '\x7d' :: [])), ?_, by simp⟩
        · exact mem_protocol.2 ⟨P,
            ' ' :: (str "domain: \"" ++ (D ++ '"' :: ' ' :: '\x7d' :: [])), rfl, hPne, hPgood, rfl⟩
        · rw [DeElectronic.NEMO_SPACE, accep]
          have hsp : str " " ++ (str "domain: \"" ++ (D ++ '"' :: ' ' :: '\x7d' :: [])) =
              ' ' :: (str "domain: \"" ++ (D ++ '"' :: ' ' :: '\x7d' :: [])) := rfl
          rw [← hsp]
          exact mem_cross_append.2 rfl
      · exact mem_domain_field.2 ⟨D, List.intersperse ' ' D, (D.length : Int),
          ' ' :: '\x7d' :: [], rfl, hdom, rfl⟩
      · have hsp : str " " ++ DeElectronic.verbalize_characters (List.intersperse ' ' D) =
            ' ' :: DeElectronic.verbalize_characters (List.intersperse ' ' D) := rfl
        simp [← hsp]
    · rw [DeElectronic.delete_preserve_order, mem_opt]
      exact Or.inl rfl
  · -- characterization of all complete outputs
    intro o w hmemC
    rw [mem_completeResults, DeElectronic.electronicFst, mem_mapOutput] at hmemC
    rcases hmemC with ⟨p2, hp2, hpe⟩
    rcases delete_tokens_inv hp2 with
      ⟨sp1, sp2, mid, o', w', r, hcs, hsp1, hsp2, hmem, sp3, rest, hr, hsp3, hq⟩
    have hfr : str "electronic \x7b protocol: \"" ++
        (P ++ (str "\" domain: \"" ++ (D ++ str "\" \x7d"))) =
        str "electronic" ++ (' ' :: '\x7b' :: ' ' :: 'p' ::
          (str "rotocol: \"" ++
            (P ++ ('"' :: (' ' :: (str "domain: \"" ++ (D ++ '"' :: ' ' :: '\x7d' :: []))))))) := by
      simp [str]
    rw [hfr] at hcs
    have hc2 : sp1 ++ ('\x7b' :: (sp2 ++ mid)) = ' ' :: '\x7b' :: ' ' :: 'p' ::
        (str "rotocol: \"" ++
          (P ++ ('"' :: (' ' :: (str "domain: \"" ++ (D ++ '"' :: ' ' :: '\x7d' :: [])))))) :=
      (List.append_cancel_left hcs).symm
    rcases space_split_single hc2 hsp1 (by decide) with hA | hB2
    · injection hA with h1 _
      exact absurd h1 (by decide)
    injection hB2 with _ hB3
    rcases space_split_single hB3 hsp2 (by decide) with hC | hD2
    · rw [hC] at hmem
      exact absurd hmem elec_space_head
    rw [hD2] at hmem
    rw [mem_tseq] at hmem
    rcases hmem with ⟨pg, hpg, pd, hpd, hge⟩
    rw [DeElectronic.graph, mem_tunion, mem_tunion] at hpg
    rcases hpg with hg | hg | hg
    · rw [mem_tseq] at hg
      rcases hg with ⟨pp, hpp, pdom, hpdom, hge2⟩
      rw [mem_opt] at hpp
      rcases hpp with rfl | hpp
      · rw [DeElectronic.domain, mem_tseq] at hpdom
        rcases hpdom with ⟨p3, hp3, _⟩
        rw [pdelete, mem_cross] at hp3
        rcases hp3.1 with ⟨Z, hZ⟩
        have hZ' : str "domain: \"" ++ Z =
            str "protocol: \"" ++
              (P ++ ('"' :: (' ' :: (str "domain: \"" ++ (D ++ '"' :: ' ' :: '\x7d' :: []))))) := hZ
        exact absurd hZ' (concrete_append_ne (by decide) (by decide))
      · rw [mem_tseq] at hpp
        rcases hpp with ⟨ppr, hppr, psp, hpsp, hppe⟩
        rcases mem_protocol.1 hppr with ⟨P', r1, hcs2, hP'ne, hP'good, hpre⟩
        have hcs2' : str "protocol: \"" ++
            (P ++ ('"' :: (' ' :: (str "domain: \"" ++ (D ++ '"' :: ' ' :: '\x7d' :: []))))) =
            str "protocol: \"" ++ (P' ++ '"' :: r1) := hcs2
        have hc3 := List.append_cancel_left hcs2'
        obtain ⟨hPP, hr1⟩ := append_sep_inj hPq (notQuoteSpace_no_quote hP'good) hc3
        subst hPP
        obtain rfl := hpre
        rw [DeElectronic.NEMO_SPACE, accep, mem_cross] at hpsp
        rcases hpsp with ⟨⟨X2, hX2⟩, rfl⟩
        have hX2f : str " " ++ X2 = r1 := hX2
        have hdrop : List.drop (str " ").length r1 = X2 := by
          rw [← hX2f]
          exact List.drop_left _ _
        have hX2' : str " " ++ X2 = r1 := hX2
        rw [← hr1] at hX2'
        have hX2'' : X2 = str "domain: \"" ++ (D ++ '"' :: ' ' :: '\x7d' :: []) := by
          have hcons : str " " ++ X2 = ' ' :: X2 := rfl
          rw [hcons] at hX2'
          injection hX2'
        subst hppe
        have hpdom' : pdom ∈ DeElectronic.domain (List.drop (str " ").length r1) := hpdom
        rw [hdrop, hX2''] at hpdom'
        rcases mem_domain_field.1 hpdom' with ⟨m, od, wd, r2, hcs3, hseqd, hdeq⟩
        have hc4 := List.append_cancel_left hcs3
        obtain ⟨hm, hr2⟩ := append_sep_inj hDq (domainSeq_no_quote hseqd) hc4
        subst hm
        subst hr2
        obtain rfl := hdeq
        subst hge2
        rw [DeElectronic.delete_preserve_order, mem_opt] at hpd
        rcases hpd with rfl | hpd
        · -- assemble the output
          have hrr : r = ' ' :: '\x7d' :: [] := by
            have := congrArg (fun t : TRes => t.2.2) hge
            simpa using this
          rw [hrr] at hr
          rcases space_split_single hr.symm hsp3 (by decide) with hE | hF
          · injection hE with h1 _
            exact absurd h1 (by decide)
          injection hF with _ hrest
          refine ⟨DeElectronic.verbalize_characters od, wd, ?_, ?_, ?_⟩
          · rw [mem_completeResults]
            exact mem_domain_inner.2 ⟨D, od, wd, [], by simp, hseqd, rfl⟩
          · have ho : o = DeElectronic.preserve_final_period (nbsp_to_space o') := by
              have := congrArg (fun t : TRes => t.1) hpe
              simp [hq] at this
              exact this
            have ho' : o' = DeElectronic.charRewrite DeElectronic.graph_symbols_map
                (List.intersperse ' ' P) ++
                ' ' :: DeElectronic.verbalize_characters od := by
              have h1 := congrArg (fun t : TRes => t.1) hge
              simp at h1
              have hsp : str " " ++ DeElectronic.verbalize_characters od =
                  ' ' :: DeElectronic.verbalize_characters od := rfl
              rw [← hsp]
              simpa [List.append_assoc] using h1
            rw [ho, ho']
          · have hw : w = w' := by
              have := congrArg (fun t : TRes => t.2.1) hpe
              simp [hq] at this
              exact this
            have hw' : w' = wd := by
              have h1 := congrArg (fun t : TRes => t.2.1) hge
              simp at h1
              omega
            rw [hw, hw']
        · rw [pdelete, mem_cross] at hpd
          rcases hpd.1 with ⟨z, hz⟩
          have hz' : str " preserve_order: true" ++ z = ' ' :: '\x7d' :: [] := hz
          have hzc : str " preserve_order: true" ++ z =
              ' ' :: 'p' :: (str "reserve_order: true" ++ z) := rfl
          rw [hzc] at hz'
          injection hz' with _ h2
          injection h2 with h3 _
          exact absurd h3 (by decide)
    · rw [mem_tseq] at hg
      rcases hg with ⟨p1, hp1, _⟩
      rcases mem_user_name.1 hp1 with ⟨U', r, hcs2, _⟩
      have hcs2' : str "protocol: \"" ++
          (P ++ ('"' :: (' ' :: (str "domain: \"" ++ (D ++ '"' :: ' ' :: '\x7d' :: []))))) =
          str "username: \"" ++ (U' ++ '"' :: r) := hcs2
      exact absurd hcs2' (concrete_append_ne (by decide) (by decide))
    · rw [mem_tseq] at hg
      rcases hg with ⟨p1, hp1, p2', hp2', _⟩
      rw [pinsert, mem_cross] at hp1
      rcases hp1 with ⟨_, rfl⟩
      rcases mem_user_name.1 hp2' with ⟨U', r, hcs2, _⟩
      have hcs2' : str "protocol: \"" ++
          (P ++ ('"' :: (' ' :: (str "domain: \"" ++ (D ++ '"' :: ' ' :: '\x7d' :: []))))) =
          str "username: \"" ++ (U' ++ '"' :: r) := hcs2
      exact absurd hcs2' (concrete_append_ne (by decide) (by decide))
  · -- a token that also has a username is rejected
    intro U
    refine electronic_reject (by decide) ?_
    intro q hq
    rw [DeElectronic.graph, mem_tunion, mem_tunion] at hq
    rcases hq with h | h | h
    · rw [mem_tseq] at h
      rcases h with ⟨p1, hp1, p2, hp2, _⟩
      rw [mem_opt] at hp1
      rcases hp1 with rfl | hp1
      · rw [DeElectronic.domain, mem_tseq] at hp2
        rcases hp2 with ⟨p3, hp3, _⟩
        rw [pdelete, mem_cross] at hp3
        rcases hp3.1 with ⟨Z, hZ⟩
        have hZ' : str "domain: \"" ++ Z =
            str "protocol: \"" ++
              (P ++ ('"' :: (' ' :: (str "username: \"" ++
                (U ++ ('"' :: (' ' :: (str "domain: \"" ++ (D ++ '"' :: ' ' :: '\x7d' :: []))))))))) := hZ
        exact absurd hZ' (concrete_append_ne (by decide) (by decide))
      · rw [mem_tseq] at hp1
        rcases hp1 with ⟨ppr, hppr, psp, hpsp, hppe⟩
        rcases mem_protocol.1 hppr with ⟨P', r1, hcs2, hP'ne, hP'good, hpre⟩
        have hcs2' : str "protocol: \"" ++
            (P ++ ('"' :: (' ' :: (str "username: \"" ++
              (U ++ ('"' :: (' ' :: (str "domain: \"" ++ (D ++ '"' :: ' ' :: '\x7d' :: []))))))))) =
            str "protocol: \"" ++ (P' ++ '"' :: r1) := hcs2
        have hc3 := List.append_cancel_left hcs2'
        obtain ⟨hPP, hr1⟩ := append_sep_inj hPq (notQuoteSpace_no_quote hP'good) hc3
        subst hPP
        obtain rfl := hpre
        rw [DeElectronic.NEMO_SPACE, accep, mem_cross] at hpsp
        rcases hpsp with ⟨⟨X2, hX2⟩, rfl⟩
        have hX2' : str " " ++ X2 = r1 := hX2
        rw [← hr1] at hX2'
        have hX2'' : X2 = str "username: \"" ++
            (U ++ ('"' :: (' ' :: (str "domain: \"" ++ (D ++ '"' :: ' ' :: '\x7d' :: []))))) := by
          have hcons : str " " ++ X2 = ' ' :: X2 := rfl
          rw [hcons] at hX2'
          injection hX2'
        have hX2f : str " " ++ X2 = r1 := hX2
        have hdrop : List.drop (str " ").length r1 = X2 := by
          rw [← hX2f]
          exact List.drop_left _ _
        subst hppe
        rw [DeElectronic.domain, mem_tseq] at hp2
        rcases hp2 with ⟨p3, hp3, _⟩
        rw [pdelete, mem_cross] at hp3
        rcases hp3.1 with ⟨Z, hZ⟩
        have hZ2 : str "domain: \"" ++ Z = List.drop (str " ").length r1 := hZ
        rw [hdrop, hX2''] at hZ2
        exact absurd hZ2 (concrete_append_ne (by decide) (by decide))
    · rw [mem_tseq] at h
      rcases h with ⟨p1, hp1, _⟩
      rcases mem_user_name.1 hp1 with ⟨U', r, hcs2, _⟩
      have hcs2' : str "protocol: \"" ++
          (P ++ ('"' :: (' ' :: (str "username: \"" ++
            (U ++ ('"' :: (' ' :: (str "domain: \"" ++ (D ++ '"' :: ' ' :: '\x7d' :: []))))))))) =
          str "username: \"" ++ (U' ++ '"' :: r) := hcs2
      exact absurd hcs2' (concrete_append_ne (by decide) (by decide))
    · rw [mem_tseq] at h
      rcases h with ⟨p1, hp1, p2', hp2', _⟩
      rw [pinsert, mem_cross] at hp1
      rcases hp1 with ⟨_, rfl⟩
      rcases mem_user_name.1 hp2' with ⟨U', r, hcs2, _⟩
      have hcs2' : str "protocol: \"" ++
          (P ++ ('"' :: (' ' :: (str "username: \"" ++
            (U ++ ('"' :: (' ' :: (str "domain: \"" ++ (D ++ '"' :: ' ' :: '\x7d' :: []))))))))) =
          str "username: \"" ++ (U' ++ '"' :: r) := hcs2
      exact absurd hcs2' (concrete_append_ne (by decide) (by decide))

/-- Witness for the amended C5 theorem at protocol value "http" and domain
value "x". -/
theorem de_protocol_prefixed_domain_only_witness :
    ((DeElectronic.preserve_final_period (nbsp_to_space
        (DeElectronic.charRewrite DeElectronic.graph_symbols_map
          (List.intersperse ' ' (str "http")) ++
          ' ' :: DeElectronic.verbalize_characters (List.intersperse ' ' (str "x"))))),
      ((str "x").length : Int)) ∈
      completeResults DeElectronic.electronicFst
        (str "electronic \x7b protocol: \"" ++
          (str "http" ++ (str "\" domain: \"" ++ (str "x" ++ str "\" \x7d")))) :=
  (de_protocol_prefixed_domain_only (str "http") (str "x")
    (by decide) (by decide) (by decide) (by decide)).1
